import Mathlib

/-!
Verification development for the claude-workflow-base repository.

The repository has two mechanical parts:

* a project scaffolding script (`scripts/setup.mjs` with template modules
  `templates/root.mjs`, `templates/web.mjs`, `templates/api.mjs`,
  `templates/shared.mjs`), and
* an agent memory convention layer (a tree of markdown files with
  per-directory `_index.md` manifests) operated by shell hooks and
  prompt-driven agents.  Of the memory layer, only the documentation
  (`agent_docs/memory_system.md`), the command prompts, and the
  post-compaction hook shell script are present as code; the maintenance
  algorithms themselves (initialization, file-index reconciliation,
  write-with-dedup, rebalancing, search) are specified in prose and are
  modelled here from that specification.

Everything is embedded shallowly: filesystem state is explicit data,
scripts become pure functions on it.
-/

namespace Setup

/-- Error value modelling a thrown JavaScript exception. -/
structure JsError where
  msg : String
deriving DecidableEq, Repr

/-- Result of accessing `s.replace(...)` in JavaScript when `s` may be
`undefined` (modelled as `none`): property access on `undefined` throws a
`TypeError`; on a string it performs global replacement. -/
def jsReplaceAll (s : Option String) (pat repl : String) : Except JsError String :=
  match s with
  | none => Except.error ⟨"TypeError: cannot read replace of undefined"⟩
  | some s => Except.ok (s.replace pat repl)

/-- Paths of the files emitted by the newer API template module
(`getApiTemplates(projectName)`). The file contents are constant template
text with no branching (aside from the database name interpolated into the
two `.env` files), and no claim depends on them, so the embedding records
the emitted paths. -/
def apiTemplatePaths : List String :=
  [ "apps/api/package.json"
  , "apps/api/tsconfig.json"
  , "apps/api/src/app.ts"
  , "apps/api/src/server.ts"
  , "apps/api/src/routes/health.ts"
  , "apps/api/src/lib/errors.ts"
  , "apps/api/src/middleware/errorHandler.ts"
  , "apps/api/src/prisma/schema.prisma"
  , "apps/api/.env.example"
  , "apps/api/.env"
  , "apps/api/vitest.config.ts" ]

/-- The newer API template module. Its first statement computes
`dbName` by globally replacing `-` with `_` in `projectName` and
appending `_dev`, so a call with no argument (`projectName` undefined)
throws a `TypeError` before any file object is built. -/
def getApiTemplates (projectName : Option String) : Except JsError (List String) := do
  let dbStem ← jsReplaceAll projectName "-" "_"
  let _dbName := dbStem ++ "_dev"
  pure apiTemplatePaths

/-- Paths of the files emitted by `getWebTemplates()` (web template
module); the function takes no parameters and cannot fail. -/
def webTemplatePaths : List String :=
  [ "apps/web/package.json"
  , "apps/web/tsconfig.json"
  , "apps/web/tsconfig.app.json"
  , "apps/web/tsconfig.node.json"
  , "apps/web/vite.config.ts"
  , "apps/web/index.html"
  , "apps/web/src/main.tsx"
  , "apps/web/src/App.tsx"
  , "apps/web/src/App.module.scss"
  , "apps/web/src/index.css"
  , "apps/web/src/vite-env.d.ts" ]

/-- Paths of the files emitted by `getSharedTemplates()` (shared package
template module); no parameters, cannot fail. -/
def sharedTemplatePaths : List String :=
  [ "packages/shared/package.json"
  , "packages/shared/tsconfig.json"
  , "packages/shared/src/index.ts"
  , "packages/shared/src/types/index.ts" ]

/-- The template-collection step of `setup.mjs` `main`: spreads
`getRootTemplates(...)`, `getWebTemplates()`, and for the full-stack
configuration `getApiTemplates()` (called, as in the source, with no
argument) and `getSharedTemplates()`. `rootTemplates` abstracts the
output of `templates/root.mjs`, whose source is not in the repository
snapshot. A thrown exception from any spread aborts the whole array
construction. -/
def collectFiles (rootTemplates : List String) (isFullStack : Bool) :
    Except JsError (List String) := do
  let api ← if isFullStack then getApiTemplates none else pure []
  let shared := if isFullStack then sharedTemplatePaths else []
  pure (rootTemplates ++ webTemplatePaths ++ api ++ shared)

/-- Observable world state of a `setup.mjs` run: whether `apps/` already
exists, which files the run wrote or removed, whether the README was
rewritten, which external commands ran, whether the user was prompted,
and the exit code once the process has finished. -/
structure SetupWorld where
  appsExists : Bool
  written : List String
  removed : List String
  readmeUpdated : Bool
  commands : List String
  prompted : Bool
  exitCode : Option Nat
deriving DecidableEq, Repr

/-- World at the start of a setup run. -/
def startWorld (appsExists : Bool) : SetupWorld :=
  ⟨appsExists, [], [], false, [], false, none⟩

/-- Files removed by the frontend-only cleanup branch. -/
def frontendCleanupRemovals : List String :=
  ["agent_docs/database_schema.md", "agent_docs/service_communication_patterns.md"]

/-- External commands run by a completed `main` (npm install, memory-tree
initialization script, git add, git commit). -/
def setupCommands : List String :=
  [ "npm install"
  , "bash .claude/skills/memory/scripts/init_memory_tree.sh"
  , "git add -A"
  , "git commit" ]

/-- Model of `main` in `scripts/setup.mjs`. Its first statement checks
for an existing `apps/` directory and calls `process.exit(1)` before the
readline interface is created. Otherwise it prompts for a configuration
(`choice`, the eventual valid answer; `"2"` selects full stack), collects
the template files, writes them, updates the README, performs the
frontend-only cleanup, runs the external commands, and removes the setup
scripts. A thrown exception is caught by `main().catch`, which exits
with status 1; template collection happens before any file is written. -/
def setupMain (rootTemplates : List String) (choice : String) (w : SetupWorld) :
    SetupWorld :=
  if w.appsExists then
    { w with exitCode := some 1 }
  else
    let w := { w with prompted := true }
    let isFullStack : Bool := choice = "2"
    match collectFiles rootTemplates isFullStack with
    | Except.error _ => { w with exitCode := some 1 }
    | Except.ok files =>
      let w := { w with written := w.written ++ files, readmeUpdated := true }
      let w :=
        if isFullStack then w
        else { w with removed := w.removed ++ frontendCleanupRemovals
                    , written := w.written ++ ["agent_docs/service_architecture.md"] }
      let w := { w with commands := w.commands ++ setupCommands
                      , removed := w.removed ++ ["scripts"] }
      { w with exitCode := some 0 }

end Setup

namespace Hook

/-- A file under the memory directory: its path relative to the memory
root, its basename, and its content as a list of lines. -/
structure MemFile where
  path : String
  name : String
  content : List String
deriving DecidableEq, Repr

/-- State of the memory tree as seen by `hooks/post_compact_recall.sh`:
whether `.claude/memory` exists, which subdirectories exist under it, and
the files it holds. -/
structure MemFS where
  treeExists : Bool
  dirs : List String
  files : List MemFile
deriving DecidableEq, Repr

/-- Model of a `find DIR -name "*.md" ! -name "_index.md" -type f` over a
subdirectory of the memory root; `find` on a missing directory fails (the
script silences stderr), producing no paths. -/
def findMdIn (fs : MemFS) (d : String) : List MemFile :=
  if fs.dirs.contains d then
    fs.files.filter fun f =>
      (d ++ "/").isPrefixOf f.path && f.path.endsWith ".md" && !(f.name == "_index.md")
  else []

/-- Model of the `TOTAL` count: all `*.md` files in the tree that are
neither `_index.md` nor hidden. -/
def totalMdFiles (fs : MemFS) : Nat :=
  (fs.files.filter fun f =>
    f.path.endsWith ".md" && !(f.name == "_index.md") && !(f.name.startsWith ".")).length

/-- Look up a file by exact path under the memory root (models `[ -f x ]`
followed by `cat x`). -/
def lookupFile (fs : MemFS) (p : String) : Option MemFile :=
  fs.files.find? fun f => f.path == p

/-- Insertion of a file into a list sorted by descending path (models
`sort -r` over the paths printed by `find`). -/
def insertDescend (f : MemFile) : List MemFile → List MemFile
  | [] => [f]
  | g :: gs => if g.path ≤ f.path then f :: g :: gs else g :: insertDescend f gs

/-- Sort files by descending path, as `find ... | sort -r` does. -/
def sortDescend : List MemFile → List MemFile
  | [] => []
  | f :: fs => insertDescend f (sortDescend fs)

/-- A line matches the `grep "Status:.*in-progress"` pattern when
`Status:` occurs and `in-progress` occurs somewhere after it. -/
def inProgressLine (l : String) : Bool :=
  ((l.splitOn "Status:").drop 1).any fun rest => (rest.splitOn "in-progress").length ≥ 2

/-- Model of `grep -rl "Status:.*in-progress" plans/ | head -1`: the first
file under `plans/` with a matching line. -/
def firstInProgressPlan (fs : MemFS) : Option MemFile :=
  if fs.dirs.contains "plans" then
    (fs.files.filter fun f =>
      ("plans" ++ "/").isPrefixOf f.path && f.content.any inProgressLine).head?
  else none

/-- Stdout block for the structured compaction summary, if present. -/
def compactionBlock (fs : MemFS) : List String :=
  match lookupFile fs "sessions/.compaction-summary.md" with
  | some f => ["", "--- PRE-COMPACTION STATE ---"] ++ f.content ++ ["--- END PRE-COMPACTION STATE ---"]
  | none => []

/-- Stdout block for up to three preference files (first 20 lines each),
emitted only when the `preferences` directory exists and holds files. -/
def preferencesBlock (fs : MemFS) : List String :=
  let prefs := (findMdIn fs "preferences").take 3
  if prefs.isEmpty then []
  else ["", "--- PREFERENCES ---"]
        ++ (prefs.flatMap fun f => f.content.take 20 ++ [""])
        ++ ["--- END PREFERENCES ---"]

/-- Stdout block for the two most recent decision files (first 15 lines
each, followed by an ellipsis line). -/
def decisionsBlock (fs : MemFS) : List String :=
  let recent := (sortDescend (findMdIn fs "decisions")).take 2
  if recent.isEmpty then []
  else ["", "--- RECENT DECISIONS ---"]
        ++ (recent.flatMap fun f => f.content.take 15 ++ ["...", ""])
        ++ ["--- END RECENT DECISIONS ---"]

/-- Stdout block for the most recent session summary (first 25 lines). -/
def sessionBlock (fs : MemFS) : List String :=
  match (sortDescend (findMdIn fs "sessions")).head? with
  | some f => ["", "--- CURRENT SESSION CONTEXT ---"] ++ f.content.take 25
              ++ ["--- END SESSION CONTEXT ---"]
  | none => []

/-- Stdout block for an in-progress plan, if one exists. -/
def planBlock (fs : MemFS) : List String :=
  match firstInProgressPlan fs with
  | some f => ["", "--- ACTIVE PLAN ---", "In-progress plan: " ++ f.name]
              ++ f.content.take 30
              ++ ["Active plan found: review " ++ f.name ++ " and continue where you left off."
                 , "--- END ACTIVE PLAN ---"]
  | none => []

/-- Model of `hooks/post_compact_recall.sh`: given the memory filesystem,
returns the filesystem after the run, the stdout lines, and the exit
status. Every command in the script (`find`, `wc`, `tr`, `echo`, `cat`,
`head`, `sort`, `grep`, `basename`) only reads, so the filesystem
component passes through each step unchanged. -/
def postCompactRecall (fs : MemFS) : MemFS × List String × Nat :=
  if fs.treeExists = false then
    (fs, ["Memory system: Tree not initialized. Context was compacted - some memories may be lost."], 0)
  else
    let out := ["Context was compacted. Re-loading key memories ("
                  ++ toString (totalMdFiles fs) ++ " total stored)."]
    let out := out ++ ["", "--- AVAILABLE COMMANDS ---",
                       "Memory: /remember | /recall [topic] | /memory-status",
                       "--- END COMMANDS ---"]
    let out := out ++ compactionBlock fs
    let out := out ++ preferencesBlock fs
    let out := out ++ decisionsBlock fs
    let out := out ++ sessionBlock fs
    let out := out ++ planBlock fs
    let out := out ++ ["", "Use /recall [topic] to retrieve more specific memories."]
    (fs, out, 0)

end Hook

namespace Memory

/-- Modelled from the spec: a memory entry file. The markdown template
fixes title, created and last-updated dates, confidence, a tag set,
summary, details and related links; an optional status marker (such as
archived) may be present. Content appended by updates accumulates as
blocks in `details`. The write layer itself
(`.claude/skills/remember/SKILL.md` and the memory-writer agent) is not
in the repository snapshot. -/
structure Entry where
  title : String
  created : Nat
  updated : Nat
  confidence : String
  tags : List String
  summary : String
  details : List String
  related : List String
  status : Option String
deriving DecidableEq, Repr

/-- Modelled from the spec: one row of an `_index.md` manifest — child
name, one-line summary, last-updated date. -/
structure IndexRow where
  child : String
  summary : String
  updated : Nat
deriving DecidableEq, Repr

/-- Modelled from the spec: a topic subdirectory of a domain, created
only by rebalancing. It owns an index and entry files; the tree depth
bound (subdomains nest only one level below a domain) is reflected in
the type. -/
structure Subdir where
  name : String
  index : List IndexRow
  entries : List (String × Entry)
deriving DecidableEq, Repr

/-- Modelled from the spec: a domain directory. `index` is `none` when
the directory exists but its `_index.md` file is missing (a
partially-initialized tree); entries are keyed by filename. -/
structure Domain where
  name : String
  index : Option (List IndexRow)
  entries : List (String × Entry)
  subdirs : List Subdir
deriving DecidableEq, Repr

/-- Modelled from the spec: one line of the files-domain project index —
a generated timestamp header, a directory group header, or a file row
with basename and optional hand-authored description. -/
inductive IndexLine where
  | timestamp (date : Nat)
  | header (dir : String)
  | row (base : String) (descr : Option String)
deriving DecidableEq, Repr

/-- Modelled from the spec: the whole memory tree — the root index (one
row per domain), the domain directories, and the files-domain project
file index (`none` until the reconciler first generates it). -/
structure Tree where
  rootIndex : List IndexRow
  domains : List Domain
  fileIndex : Option (List IndexLine)
deriving DecidableEq, Repr

/-- The canonical domain set of the memory tree. -/
def canonicalDomains : List String :=
  ["decisions", "patterns", "bugs", "preferences", "context", "sessions",
   "research", "plans", "files"]

/-- A default-empty `_index.md` (header plus empty table). -/
def defaultDomainIndex : List IndexRow := []

/-- A freshly created domain directory with a default-empty index. -/
def emptyDomain (n : String) : Domain := ⟨n, some defaultDomainIndex, [], []⟩

/-- Modelled from the spec (`init_memory_tree.sh`, not in the snapshot):
ensure one canonical domain directory exists and has an index. An absent
domain is created with a default index; a present domain missing its
index file gets a default-empty one; a present domain with an index is
untouched. -/
def ensureDomainDir : List Domain → String → List Domain
  | [], n => [emptyDomain n]
  | d :: ds, n =>
    if d.name = n then
      (match d.index with
       | none => { d with index := some defaultDomainIndex }
       | some _ => d) :: ds
    else d :: ensureDomainDir ds n

/-- Modelled from the spec: append a root-index row for a domain missing
from the root index; a listed domain keeps its row. -/
def ensureRootRow (rows : List IndexRow) (n : String) : List IndexRow :=
  if rows.any (fun r => r.child = n) then rows else rows ++ [⟨n, "", 0⟩]

/-- One initialization step for one canonical domain name. -/
def ensureDomain (t : Tree) (n : String) : Tree :=
  { t with domains := ensureDomainDir t.domains n
         , rootIndex := ensureRootRow t.rootIndex n }

/-- Modelled from the spec (`init_memory_tree.sh`, not in the snapshot):
initialization. If the tree does not exist (`none`), create the root
index and every canonical domain with default indexes. If it exists,
repair it per canonical domain: create missing domain directories,
create missing index files, append missing root-index rows; existing
entries and non-default index content are untouched. -/
def initMemoryTree : Option Tree → Tree
  | none => ⟨canonicalDomains.map (fun n => ⟨n, "", 0⟩),
             canonicalDomains.map emptyDomain, none⟩
  | some t => canonicalDomains.foldl ensureDomain t

/-- Readiness of the domain the initializer operates on: the first
domain directory named `n` exists and has an index file. -/
def firstReady : List Domain → String → Bool
  | [], _ => false
  | d :: ds, n => if d.name = n then d.index.isSome else firstReady ds n

/-- A root-index row for domain `n` is present. -/
def hasRootRow (rows : List IndexRow) (n : String) : Bool :=
  rows.any fun r => r.child = n

/-- Modelled from the spec: a project file seen by the file-index
reconciler, as a containing directory and a basename. -/
structure PFile where
  dir : String
  base : String
deriving DecidableEq, Repr

/-- Relative path of a project file. -/
def PFile.relPath (f : PFile) : String := f.dir ++ "/" ++ f.base

/-- Lexicographic order on character lists, by code point. -/
def lexLe : List Char → List Char → Bool
  | [], _ => true
  | _ :: _, [] => false
  | a :: as, b :: bs =>
    if a.val < b.val then true
    else if b.val < a.val then false
    else lexLe as bs

/-- Lexicographic order on strings, by code point. -/
def strLe (s t : String) : Bool := lexLe s.data t.data

/-- Insertion step of the lexicographic sort by relative path. -/
def insertByPath (f : PFile) : List PFile → List PFile
  | [] => [f]
  | g :: gs => if strLe f.relPath g.relPath then f :: g :: gs else g :: insertByPath f gs

/-- Sort files lexicographically by relative path (spec step 2). -/
def sortByPath : List PFile → List PFile
  | [] => []
  | f :: fs => insertByPath f (sortByPath fs)

/-- Modelled from the spec (step 4; `hooks/update_file_index.sh` is not
in the snapshot): extract the lookup table of basename to hand-authored
description from a prior index. Only rows with a description past the
filename are captured, in order, so that a first-match lookup realizes
the documented tie rule: the first encountered description wins. -/
def extractDescriptions : List IndexLine → List (String × String)
  | [] => []
  | IndexLine.row b (some d) :: rest => (b, d) :: extractDescriptions rest
  | _ :: rest => extractDescriptions rest

/-- First-match lookup in the description table. -/
def lookupDescr (b : String) : List (String × String) → Option String
  | [] => none
  | (k, v) :: rest => if k = b then some v else lookupDescr b rest

/-- Emit the listing rows: one group header per directory change over the
path-sorted files, then one row per file carrying its looked-up
description. `cur` is the directory of the last emitted group header. -/
def emitRows (table : List (String × String)) : List PFile → Option String → List IndexLine
  | [], _ => []
  | f :: fs, cur =>
    if cur = some f.dir then
      IndexLine.row f.base (lookupDescr f.base table) :: emitRows table fs cur
    else
      IndexLine.header f.dir :: IndexLine.row f.base (lookupDescr f.base table)
        :: emitRows table fs (some f.dir)

/-- Generate the full listing (steps 2 and 3): a generated timestamp
header, then the grouped rows. -/
def generateListing (today : Nat) (files : List PFile)
    (table : List (String × String)) : List IndexLine :=
  IndexLine.timestamp today :: emitRows table (sortByPath files) none

/-- Drop timestamp lines; the comparison of step 5 excludes them from
both sides so that a pure date refresh never counts as a change. -/
def stripTimestamps (ls : List IndexLine) : List IndexLine :=
  ls.filter fun l => match l with
    | IndexLine.timestamp _ => false
    | _ => true

/-- Modelled from the spec (`hooks/update_file_index.sh`, not in the
snapshot): file-index reconciliation. Files matching the exclusion
predicate are dropped (step 1); with no prior index a fresh
descriptionless listing is emitted (step 3); with a prior index the
hand-authored descriptions are extracted and re-attached by basename
(step 4); the old content is kept when nothing but the timestamp would
change (step 5). -/
def reconcile (today : Nat) (excluded : PFile → Bool) (files : List PFile)
    (prior : Option (List IndexLine)) : List IndexLine :=
  let survivors := files.filter fun f => !(excluded f)
  match prior with
  | none => generateListing today survivors []
  | some old =>
    let new := generateListing today survivors (extractDescriptions old)
    if stripTimestamps new = stripTimestamps old then old else new

/-- Tree-level reconciliation: only the files-domain project index is
replaced; domains and their entry files are untouched. -/
def reconcileTree (today : Nat) (excluded : PFile → Bool) (files : List PFile)
    (t : Tree) : Tree :=
  { t with fileIndex := some (reconcile today excluded files t.fileIndex) }

/-- Modelled from the spec: an item handed to the Entry Writer by the
extraction process. -/
structure Item where
  domain : String
  title : String
  content : String
  tags : List String
  confidence : String
  relatedFiles : List String
deriving DecidableEq, Repr

/-- Character step of filename derivation: spaces become hyphens, letters
are lower-cased. -/
def slugChar (c : Char) : Char := if c = ' ' then '-' else c.toLower

/-- Derive a filename by lower-casing and hyphenating the title. -/
def slugify (title : String) : String := ⟨title.data.map slugChar⟩

/-- Union of tag sets: existing tags keep their order, new tags not
already present are appended. -/
def unionTags (old new : List String) : List String :=
  old ++ new.filter fun t => !(old.any fun s => s = t)

/-- UPDATE branch on an entry file: append the new content under its
Details section (never overwriting prior content), union the tag sets,
set last-updated to the current date; the created date is untouched. -/
def applyUpdate (i : Item) (today : Nat) (e : Entry) : Entry :=
  { e with details := e.details ++ [i.content]
         , tags := unionTags e.tags i.tags
         , updated := today }

/-- CREATE branch: a fresh entry file from the fixed template. -/
def newEntry (i : Item) (today : Nat) : Entry :=
  { title := i.title, created := today, updated := today
  , confidence := i.confidence, tags := i.tags
  , summary := i.content, details := [i.content]
  , related := i.relatedFiles, status := none }

/-- Write a file into a directory listing: the filesystem replaces the
content stored at an existing name and appends a new name. -/
def writeFile (es : List (String × Entry)) (f : String) (e : Entry) :
    List (String × Entry) :=
  match es with
  | [] => [(f, e)]
  | (g, e0) :: rest => if g = f then (f, e) :: rest else (g, e0) :: writeFile rest f e

/-- Insert-or-replace an index row for a child: an index is a table keyed
by child name, so inserting a row for an already-listed child replaces
its row rather than duplicating it. -/
def upsertRow (rows : List IndexRow) (c s : String) (d : Nat) : List IndexRow :=
  match rows with
  | [] => [⟨c, s, d⟩]
  | r :: rest => if r.child = c then ⟨c, s, d⟩ :: rest else r :: upsertRow rest c s d

/-- Mark a row's Updated column with a new date, leaving its summary. -/
def touchRow (rows : List IndexRow) (c : String) (d : Nat) : List IndexRow :=
  rows.map fun r => if r.child = c then { r with updated := d } else r

/-- Apply an edit to the entry stored under a filename. -/
def updateEntryIn (es : List (String × Entry)) (f : String) (g : Entry → Entry) :
    List (String × Entry) :=
  es.map fun p => if p.1 = f then (p.1, g p.2) else p

/-- Location of a dedup match: a direct entry file of the domain or one
inside a topic subdirectory. -/
inductive MatchLoc where
  | direct (fname : String)
  | inSub (sub : String) (fname : String)
deriving DecidableEq, Repr

/-- First entry of a file list accepted by the similarity judgment. -/
def findIn (m : Entry → Bool) : List (String × Entry) → Option String
  | [] => none
  | (f, e) :: rest => if m e then some f else findIn m rest

/-- Search the topic subdirectories for a match. -/
def findInSubs (m : Entry → Bool) : List Subdir → Option MatchLoc
  | [] => none
  | s :: rest =>
    match findIn m s.entries with
    | some f => some (MatchLoc.inSub s.name f)
    | none => findInSubs m rest

/-- Modelled from the spec (writer protocol step 1; the write layer
`.claude/skills/remember/SKILL.md` and the memory-writer agent are not in
the snapshot): the dedup check searches the target domain and its
subdirectories for an entry accepted by the pluggable similarity
judgment `m` — matching is a similarity strategy, not a fixed
algorithm, so it is a parameter of the model. -/
def dedupFind (m : Entry → Bool) (d : Domain) : Option MatchLoc :=
  match findIn m d.entries with
  | some f => some (MatchLoc.direct f)
  | none => findInSubs m d.subdirs

/-- The per-item report line: CREATE or UPDATE, with the file touched. -/
inductive WriteAction where
  | created (fname : String)
  | updated (fname : String)
deriving DecidableEq, Repr

/-- Modelled from the spec (4.3): process one item against its domain
directory. A match takes the UPDATE branch (append under Details, union
tags, bump the index row's date); no match takes the CREATE branch
(derive the filename from the title, write the templated entry file,
insert an index row with a one-line summary and today's date). -/
def writeItemInDomain (sim : Item → Entry → Bool) (today : Nat) (d : Domain)
    (i : Item) : Domain × WriteAction :=
  match dedupFind (sim i) d with
  | some (MatchLoc.direct f) =>
    ({ d with entries := updateEntryIn d.entries f (applyUpdate i today)
            , index := some (touchRow (d.index.getD []) f today) },
     WriteAction.updated f)
  | some (MatchLoc.inSub sn f) =>
    ({ d with subdirs := d.subdirs.map fun s =>
          if s.name = sn then
            { s with entries := updateEntryIn s.entries f (applyUpdate i today)
                   , index := touchRow s.index f today }
          else s
            , index := some (touchRow (d.index.getD []) sn today) },
     WriteAction.updated f)
  | none =>
    let f := slugify i.title
    ({ d with entries := writeFile d.entries f (newEntry i today)
            , index := some (upsertRow (d.index.getD []) f i.content today) },
     WriteAction.created f)

/-- Apply the writer to the first domain bearing the item's domain name. -/
def writeDomains (sim : Item → Entry → Bool) (today : Nat) (i : Item) :
    List Domain → List Domain × Option WriteAction
  | [] => ([], none)
  | d :: ds =>
    if d.name = i.domain then
      ((writeItemInDomain sim today d i).1 :: ds,
       some (writeItemInDomain sim today d i).2)
    else
      let r := writeDomains sim today i ds
      (d :: r.1, r.2)

/-- One writer step on the whole tree: ensure the target domain directory
exists (new domains can be created as needed), write the item into it,
and update the root index row of the touched domain (step 4). -/
def writeItemTree (sim : Item → Entry → Bool) (today : Nat) (t : Tree)
    (i : Item) : Tree × WriteAction :=
  let t1 := ensureDomain t i.domain
  let r := writeDomains sim today i t1.domains
  ({ t1 with domains := r.1, rootIndex := touchRow t1.rootIndex i.domain today },
   r.2.getD (WriteAction.created (slugify i.title)))

/-- Process the items sequentially, collecting the per-item report. -/
def writeItemsAux (sim : Item → Entry → Bool) (today : Nat) :
    Tree → List Item → Tree × List WriteAction
  | t, [] => (t, [])
  | t, i :: is =>
    let r := writeItemTree sim today t i
    let rest := writeItemsAux sim today r.1 is
    (rest.1, r.2 :: rest.2)

/-- Rebalance trigger threshold: a domain directory holding more than
this many non-index files is split (configurable constant). -/
def rebalanceThreshold : Nat := 8

/-- Move one file into its topic subdirectory: create the subdirectory
(with an index listing the moved file) when absent; otherwise write the
file and its index row into the existing one (the filesystem replaces a
same-named file in the target directory). -/
def addToSubdir (today : Nat) (g f : String) (e : Entry) :
    List Subdir → List Subdir
  | [] => [⟨g, [⟨f, e.summary, today⟩], [(f, e)]⟩]
  | s :: rest =>
    if s.name = g then
      { s with index := upsertRow s.index f e.summary today
             , entries := writeFile s.entries f e } :: rest
    else s :: addToSubdir today g f e rest

/-- Move every direct file into the subdirectory of its topic group. -/
def moveAll (groupOf : String → Entry → String) (today : Nat) :
    List (String × Entry) → List Subdir → List Subdir
  | [], subs => subs
  | (f, e) :: rest, subs =>
    moveAll groupOf today rest (addToSubdir today (groupOf f e) f e subs)

/-- Modelled from the spec (4.4; the rebalancer is not in the snapshot):
count the non-index leaf files directly inside the domain; at or below
the threshold, no-op. Above it, partition the direct files by topic
(`groupOf`, a caller-supplied heuristic — the partitioning is a
judgment call, so it is a parameter of the model), move each file into
its group's subdirectory, write each subdirectory's index, and rewrite
the domain's index to list the subdirectories in place of the moved
files' direct rows. The one-level subdirectory structure keeps the tree
within its depth budget. -/
def rebalanceIfNeeded (groupOf : String → Entry → String) (today : Nat)
    (d : Domain) : Domain :=
  if d.entries.length ≤ rebalanceThreshold then d
  else
    let subs := moveAll groupOf today d.entries d.subdirs
    let kept := (d.index.getD []).filter fun r =>
      !(d.entries.any fun p => p.1 = r.child)
    let rows := subs.foldl
      (fun acc s => upsertRow acc s.name ("Topic group " ++ s.name) today) kept
    { d with index := some rows, entries := [], subdirs := subs }

/-- Post-write rebalance pass: once per touched domain (4.3 step 5). -/
def rebalanceDomains (groupOf : String → Entry → String) (today : Nat)
    (touched : List String) (ds : List Domain) : List Domain :=
  ds.map fun d =>
    if touched.any (fun n => n = d.name) then rebalanceIfNeeded groupOf today d
    else d

/-- Modelled from the spec (4.3): writeEntries — sequential dedup-checked
writes with index updates, then one rebalance check per touched domain,
returning the tree and the per-item CREATE/UPDATE report. -/
def writeEntries (sim : Item → Entry → Bool) (groupOf : String → Entry → String)
    (today : Nat) (t : Tree) (items : List Item) : Tree × List WriteAction :=
  let r := writeItemsAux sim today t items
  let touched := items.map fun i => i.domain
  ({ r.1 with domains := rebalanceDomains groupOf today touched r.1.domains }, r.2)

/-- A ranked search result. -/
structure Hit where
  domain : String
  fname : String
  updated : Nat
  confidence : String
deriving DecidableEq, Repr

/-- Outcome of a search: a nonempty ranked result list, or the explicit
no-matches marker — callers can distinguish found-nothing from failed. -/
inductive SearchOutcome where
  | results (hits : List Hit)
  | noMatches
deriving DecidableEq, Repr

/-- Prefix test on character lists. -/
def isPrefixChars : List Char → List Char → Bool
  | [], _ => true
  | _ :: _, [] => false
  | a :: as, b :: bs => a = b && isPrefixChars as bs

/-- Occurrence test on character lists. -/
def occursIn (q : List Char) : List Char → Bool
  | [] => isPrefixChars q []
  | c :: rest => isPrefixChars q (c :: rest) || occursIn q rest

/-- Substring test: the query occurs in the scanned text. -/
def containsSub (s q : String) : Bool := occursIn q.data s.data

/-- All entry files of a domain, direct and one level down. -/
def allEntries (d : Domain) : List (String × Entry) :=
  d.entries ++ d.subdirs.flatMap fun s => s.entries

/-- Search pass 1: scan every domain index for keyword matches against
row names and summaries. -/
def indexScanPass (t : Tree) (q : String) : List Hit :=
  t.domains.flatMap fun d =>
    ((d.index.getD []).filter fun r =>
        containsSub r.child q || containsSub r.summary q).map
      fun r => ⟨d.name, r.child, r.updated, ""⟩

/-- A hit built from an entry file. -/
def entryHit (d : Domain) (p : String × Entry) : Hit :=
  ⟨d.name, p.1, p.2.updated, p.2.confidence⟩

/-- Search pass 2: glob-match filenames containing the query substring. -/
def filenamePass (t : Tree) (q : String) : List Hit :=
  t.domains.flatMap fun d =>
    ((allEntries d).filter fun p => containsSub p.1 q).map (entryHit d)

/-- Search pass 3: grep the entries' Tags lines for the query token. -/
def tagsPass (t : Tree) (q : String) : List Hit :=
  t.domains.flatMap fun d =>
    ((allEntries d).filter fun p =>
        p.2.tags.any fun tg => containsSub tg q).map (entryHit d)

/-- Search pass 4: full-text grep of entry bodies (index files excluded
by construction), the most expensive last resort. -/
def fulltextPass (t : Tree) (q : String) : List Hit :=
  t.domains.flatMap fun d =>
    ((allEntries d).filter fun p =>
        containsSub p.2.summary q
          || p.2.details.any fun b => containsSub b q).map (entryHit d)

/-- Result bound of the Locator. -/
def searchLimit : Nat := 10

/-- Gather hits in strict priority order, short-circuiting as soon as
enough results are collected. -/
def gatherHits (t : Tree) (q : String) : List Hit :=
  let r1 := indexScanPass t q
  if searchLimit ≤ r1.length then r1 else
  let r2 := r1 ++ filenamePass t q
  if searchLimit ≤ r2.length then r2 else
  let r3 := r2 ++ tagsPass t q
  if searchLimit ≤ r3.length then r3 else
  r3 ++ fulltextPass t q

/-- Numeric weight of a stated confidence level. -/
def confWeight : String → Nat
  | "high" => 2
  | "medium" => 1
  | _ => 0

/-- Ranking order: more recently updated first, then higher stated
confidence. -/
def hitBefore (a b : Hit) : Bool :=
  b.updated < a.updated
    || (b.updated = a.updated && confWeight b.confidence ≤ confWeight a.confidence)

/-- Insertion step of the ranking sort. -/
def insertHit (a : Hit) : List Hit → List Hit
  | [] => [a]
  | b :: bs => if hitBefore a b then a :: b :: bs else b :: insertHit a bs

/-- Rank the gathered hits. -/
def rankHits : List Hit → List Hit
  | [] => []
  | a :: as => insertHit a (rankHits as)

/-- Modelled from the spec (4.5; the recall skill is not in the
snapshot): the Locator. Four passes in strict priority order, ranked and
bounded to ten results; zero hits over all four passes yield the
explicit no-matches marker rather than an empty list. Read-only by
construction: no tree is produced. -/
def searchTree (t : Tree) (q : String) : SearchOutcome :=
  let hits := gatherHits t q
  if hits.isEmpty then SearchOutcome.noMatches
  else SearchOutcome.results ((rankHits hits).take searchLimit)

/-- Mark an entry archived, leaving every content field in place. -/
def archiveEntry (e : Entry) : Entry := { e with status := some "archived" }

/-- Modelled from the spec (never-delete rule): superseding an entry
marks its status archived in place wherever the filename occurs inside
the domain; no file is removed and no content field is touched. -/
def supersedeEntry (t : Tree) (dn f : String) : Tree :=
  { t with domains := t.domains.map fun d =>
      if d.name = dn then
        { d with entries := updateEntryIn d.entries f archiveEntry
               , subdirs := d.subdirs.map fun s =>
                   { s with entries := updateEntryIn s.entries f archiveEntry } }
      else d }

/-- Some subdirectory contains an entry file with the given name. -/
def subHasName (subs : List Subdir) (f : String) : Bool :=
  subs.any fun s => s.entries.any fun p => p.1 = f

/-- The domain directory holds an entry file named `f`, directly or one
subdirectory level down. -/
def domainHasFile (d : Domain) (f : String) : Bool :=
  (d.entries.any fun p => p.1 = f) || subHasName d.subdirs f

/-- An entry file named `f` is reachable in a domain named `dn`. -/
def hasFileB (t : Tree) (dn f : String) : Bool :=
  t.domains.any fun d => d.name = dn && domainHasFile d f

/-- The exact pair `(f, e)` is stored in the domain directory, directly
or in one of its subdirectories. -/
def pairInDomainB (d : Domain) (f : String) (e : Entry) : Bool :=
  (d.entries.any fun p => p = (f, e))
    || d.subdirs.any fun s => s.entries.any fun p => p = (f, e)

/-- The exact pair `(f, e)` is stored in the domain named `dn`, directly
or in one of its subdirectories. -/
def hasPairB (t : Tree) (dn : String) (f : String) (e : Entry) : Bool :=
  t.domains.any fun d => d.name = dn && pairInDomainB d f e

/-- The first domain directory bearing a name. -/
def domainOf (t : Tree) (dn : String) : Option Domain :=
  t.domains.find? fun d => d.name = dn

/-- Number of entries with the given title in a domain directory, direct
and one level down. -/
def countD (d : Domain) (title : String) : Nat :=
  ((allEntries d).filter fun p => p.2.title = title).length

/-- Some entry of the domain, direct or one level down, bears the
title. -/
def existsTitledB (d : Domain) (title : String) : Bool :=
  (allEntries d).any fun p => p.2.title = title

/-- The file listing of a domain directory: its direct entry filenames
and, per subdirectory, the subdirectory's entry filenames. -/
def domainListing (d : Domain) : List String × List (List String) :=
  (d.entries.map Prod.fst, d.subdirs.map fun s => s.entries.map Prod.fst)

/-- Number of entries with the given title in the first domain named
`dn`, direct and one level down. -/
def countTitled (t : Tree) (dn title : String) : Nat :=
  match domainOf t dn with
  | none => 0
  | some d => countD d title

/-- Number of entry files directly inside the first domain named `dn`. -/
def directCount (t : Tree) (dn : String) : Nat :=
  match domainOf t dn with
  | none => 0
  | some d => d.entries.length

/-- The initializer's index repair of one domain directory: a missing
index file is replaced by a default-empty one; everything else is
untouched. -/
def fixIndex (d : Domain) : Domain :=
  match d.index with
  | none => { d with index := some defaultDomainIndex }
  | some _ => d

/-- Immediate children of a domain directory: its entry files and its
subdirectories. -/
def domainChildren (d : Domain) : List String :=
  d.entries.map Prod.fst ++ d.subdirs.map Subdir.name

/-- Index bijection for a domain directory: row children are unique,
every child is listed, and every row lists an existing child. -/
def DomainBij (d : Domain) : Prop :=
  ((d.index.getD []).map IndexRow.child).Nodup
  ∧ (∀ c ∈ domainChildren d, c ∈ (d.index.getD []).map IndexRow.child)
  ∧ (∀ r ∈ d.index.getD [], r.child ∈ domainChildren d)

/-- Bijection between an index-row table and a file listing: row children
are unique, every file is listed, every row lists an existing file. -/
def PairBij (rows : List IndexRow) (es : List (String × Entry)) : Prop :=
  (rows.map IndexRow.child).Nodup
  ∧ (∀ c ∈ es.map Prod.fst, c ∈ rows.map IndexRow.child)
  ∧ (∀ r ∈ rows, r.child ∈ es.map Prod.fst)

/-- Index bijection for a topic subdirectory. -/
def SubdirBij (s : Subdir) : Prop := PairBij s.index s.entries

/-- Well-formedness of a domain: its own bijection and that of each of
its subdirectories. -/
def DomainWF (d : Domain) : Prop := DomainBij d ∧ ∀ s ∈ d.subdirs, SubdirBij s

/-- Well-formedness of the tree: every domain directory is
well-formed. -/
def TreeWF (t : Tree) : Prop := ∀ d ∈ t.domains, DomainWF d

instance (rows : List IndexRow) (es : List (String × Entry)) :
    Decidable (PairBij rows es) := by
  unfold PairBij; infer_instance

instance (d : Domain) : Decidable (DomainBij d) := by
  unfold DomainBij; infer_instance

instance (s : Subdir) : Decidable (SubdirBij s) := by
  unfold SubdirBij; infer_instance

instance (d : Domain) : Decidable (DomainWF d) := by
  unfold DomainWF; infer_instance

instance (t : Tree) : Decidable (TreeWF t) := by
  unfold TreeWF; infer_instance

/-- A file is reachable from the domain's index directly (listed row and
direct file) or via exactly one subdirectory level (file listed in a
subdirectory's index whose subdirectory is listed in the domain's
index). -/
def reachableOneLevel (d : Domain) (f : String) : Bool :=
  ((d.entries.any fun p => p.1 = f) && ((d.index.getD []).any fun r => r.child = f))
  || d.subdirs.any fun s =>
      (s.entries.any fun p => p.1 = f)
        && (s.index.any fun r => r.child = f)
        && ((d.index.getD []).any fun r => r.child = s.name)

/-- Some subdirectory holds the file and lists it in its own index. -/
def subHolds (subs : List Subdir) (f : String) : Bool :=
  subs.any fun s =>
    (s.entries.any fun p => p.1 = f) && (s.index.any fun r => r.child = f)

/-- A placeholder entry used by concrete witnesses. -/
def plainEntry (title : String) : Entry :=
  ⟨title, 0, 0, "high", [], "sum", [], [], none⟩

/-- Concrete nine-file domain used to exercise the rebalancer. -/
def nineFileDomain : Domain :=
  { name := "bugs"
  , index := some
      [⟨"f0", "s", 0⟩, ⟨"f1", "s", 0⟩, ⟨"f2", "s", 0⟩, ⟨"f3", "s", 0⟩,
       ⟨"f4", "s", 0⟩, ⟨"f5", "s", 0⟩, ⟨"f6", "s", 0⟩, ⟨"f7", "s", 0⟩,
       ⟨"f8", "s", 0⟩]
  , entries :=
      [("f0", plainEntry "t0"), ("f1", plainEntry "t1"), ("f2", plainEntry "t2"),
       ("f3", plainEntry "t3"), ("f4", plainEntry "t4"), ("f5", plainEntry "t5"),
       ("f6", plainEntry "t6"), ("f7", plainEntry "t7"), ("f8", plainEntry "t8")]
  , subdirs := [] }

/-- Concrete one-entry tree used by witnesses. -/
def oneBugTree : Tree :=
  { rootIndex := [⟨"bugs", "", 0⟩]
  , domains := [{ name := "bugs"
                , index := some [⟨"old-bug", "s", 0⟩]
                , entries := [("old-bug", plainEntry "Old bug")]
                , subdirs := [] }]
  , fileIndex := none }

theorem firstReady_ensureDomainDir_self (ds : List Domain) (n : String) :
    firstReady (ensureDomainDir ds n) n = true := by
  induction ds with
  | nil => simp [ensureDomainDir, firstReady, emptyDomain]
  | cons d ds ih =>
    by_cases h : d.name = n
    · cases hi : d.index <;> simp [ensureDomainDir, h, hi, firstReady]
    · simpa [ensureDomainDir, h, firstReady] using ih

theorem ensureDomainDir_of_ready (ds : List Domain) (n : String)
    (h : firstReady ds n = true) : ensureDomainDir ds n = ds := by
  induction ds with
  | nil => simp [firstReady] at h
  | cons d ds ih =>
    by_cases hn : d.name = n
    · cases hi : d.index with
      | none => simp [firstReady, hn, hi] at h
      | some rows => simp [ensureDomainDir, hn, hi]
    · have := ih (by simpa [firstReady, hn] using h)
      simp [ensureDomainDir, hn, this]

theorem firstReady_ensureDomainDir_mono (ds : List Domain) (n m : String)
    (h : firstReady ds m = true) :
    firstReady (ensureDomainDir ds n) m = true := by
  induction ds with
  | nil => simp [firstReady] at h
  | cons d ds ih =>
    by_cases hn : d.name = n
    · cases hi : d.index with
      | some rows =>
        rw [ensureDomainDir_of_ready (d :: ds) n (by simp [firstReady, hn, hi])]
        exact h
      | none =>
        rw [firstReady] at h
        simp only [ensureDomainDir, if_pos hn, hi]
        by_cases hm : d.name = m
        · rw [if_pos hm, hi] at h; simp at h
        · rw [if_neg hm] at h
          simpa [firstReady, hm] using h
    · rw [firstReady] at h
      simp only [ensureDomainDir, if_neg hn]
      by_cases hm : d.name = m
      · rw [if_pos hm] at h
        simpa [firstReady, hm] using h
      · rw [if_neg hm] at h
        simpa [firstReady, hm] using ih h

theorem hasRootRow_ensureRootRow_self (rows : List IndexRow) (n : String) :
    hasRootRow (ensureRootRow rows n) n = true := by
  by_cases h : rows.any (fun r => r.child = n) = true
  · rw [ensureRootRow, if_pos h]; exact h
  · rw [ensureRootRow, if_neg h, hasRootRow, List.any_append]
    simp

theorem hasRootRow_ensureRootRow_mono (rows : List IndexRow) (n m : String)
    (h : hasRootRow rows m = true) :
    hasRootRow (ensureRootRow rows n) m = true := by
  by_cases hn : rows.any (fun r => r.child = n) = true
  · rw [ensureRootRow, if_pos hn]; exact h
  · rw [ensureRootRow, if_neg hn, hasRootRow, List.any_append]
    rw [hasRootRow] at h
    simp [h]

theorem ensureRootRow_of_present (rows : List IndexRow) (n : String)
    (h : hasRootRow rows n = true) : ensureRootRow rows n = rows := by
  rw [ensureRootRow, if_pos]
  exact h

/-- Invariant established by one pass of the initializer for one domain:
the first directory of that name has an index, and the root index lists
the domain. -/
def ReadyFor (t : Tree) (n : String) : Prop :=
  firstReady t.domains n = true ∧ hasRootRow t.rootIndex n = true

theorem readyFor_ensureDomain_self (t : Tree) (n : String) :
    ReadyFor (ensureDomain t n) n :=
  ⟨firstReady_ensureDomainDir_self _ _, hasRootRow_ensureRootRow_self _ _⟩

theorem readyFor_ensureDomain_mono (t : Tree) (n m : String)
    (h : ReadyFor t m) : ReadyFor (ensureDomain t n) m :=
  ⟨firstReady_ensureDomainDir_mono _ _ _ h.1, hasRootRow_ensureRootRow_mono _ _ _ h.2⟩

theorem ensureDomain_of_ready (t : Tree) (n : String)
    (h : ReadyFor t n) : ensureDomain t n = t := by
  cases t
  simp [ensureDomain, ensureDomainDir_of_ready _ _ h.1, ensureRootRow_of_present _ _ h.2]

theorem readyFor_foldl_mono (l : List String) (t : Tree) (m : String)
    (h : ReadyFor t m) : ReadyFor (l.foldl ensureDomain t) m := by
  induction l generalizing t with
  | nil => simpa using h
  | cons a l ih => exact ih _ (readyFor_ensureDomain_mono _ _ _ h)

theorem readyFor_foldl (l : List String) (t : Tree) :
    ∀ n ∈ l, ReadyFor (l.foldl ensureDomain t) n := by
  induction l generalizing t with
  | nil => intro n hn; simp at hn
  | cons a l ih =>
    intro n hn
    rcases List.mem_cons.mp hn with rfl | hn
    · exact readyFor_foldl_mono l (ensureDomain t n) n (readyFor_ensureDomain_self t n)
    · exact ih (ensureDomain t a) n hn

theorem foldl_ensureDomain_of_ready (l : List String) (t : Tree)
    (h : ∀ n ∈ l, ReadyFor t n) : l.foldl ensureDomain t = t := by
  induction l with
  | nil => rfl
  | cons a l ih =>
    have ha : ensureDomain t a = t := ensureDomain_of_ready _ _ (h a (by simp))
    simpa [ha] using ih (fun n hn => h n (List.mem_cons_of_mem _ hn))

theorem firstReady_map_emptyDomain (l : List String) (n : String)
    (h : n ∈ l) : firstReady (l.map emptyDomain) n = true := by
  induction l with
  | nil => simp at h
  | cons a l ih =>
    rcases List.mem_cons.mp h with rfl | h
    · simp [firstReady, emptyDomain]
    · by_cases ha : a = n
      · simp [firstReady, emptyDomain, ha]
      · simpa [firstReady, emptyDomain, ha] using ih h

theorem hasRootRow_map_defaultRow (l : List String) (n : String)
    (h : n ∈ l) :
    hasRootRow (l.map fun m => (⟨m, "", 0⟩ : IndexRow)) n = true := by
  rw [hasRootRow, List.any_eq_true]
  exact ⟨⟨n, "", 0⟩, List.mem_map.mpr ⟨n, h, rfl⟩, by simp⟩

theorem readyFor_initMemoryTree (t0 : Option Tree) (n : String)
    (h : n ∈ canonicalDomains) : ReadyFor (initMemoryTree t0) n := by
  cases t0 with
  | none =>
    exact ⟨firstReady_map_emptyDomain _ _ h, hasRootRow_map_defaultRow _ _ h⟩
  | some t => exact readyFor_foldl _ _ n h

theorem mem_insertByPath (f x : PFile) (l : List PFile) :
    x ∈ insertByPath f l ↔ x = f ∨ x ∈ l := by
  induction l with
  | nil => simp [insertByPath]
  | cons g gs ih =>
    by_cases h : strLe f.relPath g.relPath = true
    · simp [insertByPath, h]
    · simp [insertByPath, h, ih]
      tauto

theorem mem_sortByPath (x : PFile) (l : List PFile) :
    x ∈ sortByPath l ↔ x ∈ l := by
  induction l with
  | nil => simp [sortByPath]
  | cons f fs ih => simp [sortByPath, mem_insertByPath, ih]

theorem lookupDescr_of_nodup (table : List (String × String)) (b d : String)
    (hnd : (table.map Prod.fst).Nodup) (h : (b, d) ∈ table) :
    lookupDescr b table = some d := by
  induction table with
  | nil => simp at h
  | cons p rest ih =>
    obtain ⟨k, v⟩ := p
    rw [List.map_cons] at hnd
    have hhead := (List.nodup_cons.mp hnd).1
    have htail := (List.nodup_cons.mp hnd).2
    by_cases hk : k = b
    · rcases List.mem_cons.mp h with heq | h2
      · injection heq with h1 h2
        rw [lookupDescr, if_pos hk, h2]
      · exact absurd (List.mem_map.mpr ⟨(b, d), h2, rfl⟩) (hk ▸ hhead)
    · rcases List.mem_cons.mp h with heq | h2
      · injection heq with h1 h2
        exact absurd h1.symm hk
      · rw [lookupDescr, if_neg hk]
        exact ih htail h2

theorem lookupDescr_eq_none (table : List (String × String)) (b : String)
    (h : ∀ d, (b, d) ∉ table) : lookupDescr b table = none := by
  induction table with
  | nil => rfl
  | cons p rest ih =>
    cases p with
    | mk k v =>
      have hk : k ≠ b := by
        intro hkb
        exact h v (by rw [hkb]; exact List.mem_cons_self _ _)
      simpa [lookupDescr, hk] using
        ih (fun d hd => h d (List.mem_cons_of_mem _ hd))

theorem row_mem_emitRows (table : List (String × String)) (fs : List PFile)
    (f : PFile) (h : f ∈ fs) : ∀ cur,
    IndexLine.row f.base (lookupDescr f.base table) ∈ emitRows table fs cur := by
  induction fs with
  | nil => simp at h
  | cons g gs ih =>
    intro cur
    rcases List.mem_cons.mp h with rfl | h
    · by_cases hc : cur = some f.dir <;> simp [emitRows, hc]
    · by_cases hc : cur = some g.dir <;>
        simp [emitRows, hc, ih h]

theorem row_mem_stripTimestamps (b : String) (d : Option String)
    (x : List IndexLine) :
    IndexLine.row b d ∈ stripTimestamps x ↔ IndexLine.row b d ∈ x := by
  simp [stripTimestamps, List.mem_filter]

theorem row_mem_reconcile (today : Nat) (excluded : PFile → Bool)
    (files : List PFile) (old : List IndexLine) (f : PFile)
    (hf : f ∈ files) (hex : excluded f = false) :
    IndexLine.row f.base (lookupDescr f.base (extractDescriptions old))
      ∈ reconcile today excluded files (some old) := by
  have hsurv : f ∈ files.filter fun g => !(excluded g) :=
    List.mem_filter.mpr ⟨hf, by simp [hex]⟩
  have hrow := row_mem_emitRows (extractDescriptions old) _ f
    ((mem_sortByPath _ _).mpr hsurv) none
  have hnew : IndexLine.row f.base (lookupDescr f.base (extractDescriptions old))
      ∈ generateListing today (files.filter fun g => !(excluded g))
          (extractDescriptions old) :=
    List.mem_cons_of_mem _ hrow
  rw [reconcile]
  by_cases heq : stripTimestamps (generateListing today
      (files.filter fun g => !(excluded g)) (extractDescriptions old))
      = stripTimestamps old
  · simp only [if_pos heq]
    exact (row_mem_stripTimestamps _ _ _).mp
      (heq ▸ (row_mem_stripTimestamps _ _ _).mpr hnew)
  · simp only [if_neg heq]
    exact hnew

theorem writeFile_any_self (es : List (String × Entry)) (f : String) (e : Entry) :
    ((writeFile es f e).any fun p => p.1 = f) = true := by
  induction es with
  | nil => simp [writeFile]
  | cons p rest ih =>
    obtain ⟨g, e0⟩ := p
    by_cases h : g = f
    · simp [writeFile, h]
    · simp only [writeFile, if_neg h, List.any_cons]
      simp [ih]

theorem writeFile_any_mono (es : List (String × Entry)) (f g : String) (e : Entry)
    (h : (es.any fun p => p.1 = g) = true) :
    ((writeFile es f e).any fun p => p.1 = g) = true := by
  induction es with
  | nil => simp at h
  | cons p rest ih =>
    obtain ⟨k, e0⟩ := p
    simp only [List.any_cons] at h
    by_cases hk : k = f
    · simp only [writeFile, if_pos hk, List.any_cons]
      rcases Bool.or_eq_true_iff.mp h with h1 | h2
      · have : k = g := by simpa using h1
        simp [← hk, this]
      · simp [h2]
    · simp only [writeFile, if_neg hk, List.any_cons]
      rcases Bool.or_eq_true_iff.mp h with h1 | h2
      · simp [h1]
      · simp [ih h2]

theorem mem_name_writeFile (es : List (String × Entry)) (f c : String) (e : Entry) :
    c ∈ (writeFile es f e).map Prod.fst ↔ c = f ∨ c ∈ es.map Prod.fst := by
  induction es with
  | nil => simp [writeFile]
  | cons p rest ih =>
    obtain ⟨k, e0⟩ := p
    by_cases hk : k = f
    · simp [writeFile, hk]
    · simp [writeFile, hk, ih]
      tauto

theorem upsertRow_any_self (rows : List IndexRow) (c s : String) (d : Nat) :
    ((upsertRow rows c s d).any fun r => r.child = c) = true := by
  induction rows with
  | nil => simp [upsertRow]
  | cons r rest ih =>
    by_cases h : r.child = c
    · simp [upsertRow, h]
    · simp only [upsertRow, if_neg h, List.any_cons]
      simp [ih]

theorem upsertRow_any_mono (rows : List IndexRow) (c c2 s : String) (d : Nat)
    (h : (rows.any fun r => r.child = c2) = true) :
    ((upsertRow rows c s d).any fun r => r.child = c2) = true := by
  induction rows with
  | nil => simp at h
  | cons r rest ih =>
    simp only [List.any_cons] at h
    by_cases hk : r.child = c
    · simp only [upsertRow, if_pos hk, List.any_cons]
      rcases Bool.or_eq_true_iff.mp h with h1 | h2
      · have : r.child = c2 := by simpa using h1
        simp [← hk, this]
      · simp [h2]
    · simp only [upsertRow, if_neg hk, List.any_cons]
      rcases Bool.or_eq_true_iff.mp h with h1 | h2
      · simp [h1]
      · simp [ih h2]

theorem mem_child_upsertRow (rows : List IndexRow) (c s c2 : String) (d : Nat) :
    c2 ∈ (upsertRow rows c s d).map IndexRow.child
      ↔ c2 = c ∨ c2 ∈ rows.map IndexRow.child := by
  induction rows with
  | nil => simp [upsertRow]
  | cons r rest ih =>
    by_cases hk : r.child = c
    · simp [upsertRow, hk]
    · simp [upsertRow, hk, ih]
      tauto

theorem nodup_child_upsertRow (rows : List IndexRow) (c s : String) (d : Nat)
    (h : (rows.map IndexRow.child).Nodup) :
    ((upsertRow rows c s d).map IndexRow.child).Nodup := by
  induction rows with
  | nil => simp [upsertRow]
  | cons r rest ih =>
    rw [List.map_cons, List.nodup_cons] at h
    by_cases hk : r.child = c
    · rw [upsertRow, if_pos hk]
      rw [List.map_cons, List.nodup_cons]
      exact ⟨by rw [← hk]; exact h.1, h.2⟩
    · rw [upsertRow, if_neg hk]
      rw [List.map_cons, List.nodup_cons]
      refine ⟨?_, ih h.2⟩
      intro hmem
      rcases (mem_child_upsertRow rest c s r.child d).mp hmem with h1 | h2
      · exact hk h1
      · exact h.1 h2

theorem map_child_touchRow (rows : List IndexRow) (c : String) (d : Nat) :
    (touchRow rows c d).map IndexRow.child = rows.map IndexRow.child := by
  induction rows with
  | nil => rfl
  | cons r rest ih =>
    by_cases h : r.child = c <;> simp [touchRow, h] at ih ⊢ <;> exact ih

theorem map_fst_updateEntryIn (es : List (String × Entry)) (f : String)
    (g : Entry → Entry) :
    (updateEntryIn es f g).map Prod.fst = es.map Prod.fst := by
  induction es with
  | nil => rfl
  | cons p rest ih =>
    by_cases h : p.1 = f <;> simp [updateEntryIn, h] at ih ⊢ <;> exact ih

theorem subHolds_addToSubdir_self (today : Nat) (g f : String) (e : Entry)
    (subs : List Subdir) :
    subHolds (addToSubdir today g f e subs) f = true := by
  induction subs with
  | nil => simp [addToSubdir, subHolds]
  | cons s rest ih =>
    by_cases h : s.name = g
    · simp only [addToSubdir, if_pos h, subHolds, List.any_cons]
      simp [writeFile_any_self, upsertRow_any_self]
    · simp only [addToSubdir, if_neg h, subHolds, List.any_cons]
      rw [subHolds] at ih
      simp [ih]

theorem subHolds_addToSubdir_mono (today : Nat) (g f : String) (e : Entry)
    (subs : List Subdir) (f2 : String) (h : subHolds subs f2 = true) :
    subHolds (addToSubdir today g f e subs) f2 = true := by
  induction subs with
  | nil => simp [subHolds] at h
  | cons s rest ih =>
    rw [subHolds, List.any_cons] at h
    by_cases hn : s.name = g
    · simp only [addToSubdir, if_pos hn, subHolds, List.any_cons]
      rcases Bool.or_eq_true_iff.mp h with h1 | h2
      · obtain ⟨ha, hb⟩ := Bool.and_eq_true_iff.mp h1
        simp [writeFile_any_mono _ _ _ _ ha, upsertRow_any_mono _ _ _ _ _ hb]
      · simp [h2]
    · simp only [addToSubdir, if_neg hn, subHolds, List.any_cons]
      rcases Bool.or_eq_true_iff.mp h with h1 | h2
      · simp [h1]
      · have := ih (by rw [subHolds]; exact h2)
        rw [subHolds] at this
        simp [this]

theorem subHolds_moveAll_mono (groupOf : String → Entry → String) (today : Nat)
    (pending : List (String × Entry)) (subs : List Subdir) (f : String)
    (h : subHolds subs f = true) :
    subHolds (moveAll groupOf today pending subs) f = true := by
  induction pending generalizing subs with
  | nil => simpa [moveAll] using h
  | cons p rest ih =>
    obtain ⟨f0, e0⟩ := p
    exact ih _ (subHolds_addToSubdir_mono _ _ _ _ _ _ h)

theorem subHolds_moveAll_of_mem (groupOf : String → Entry → String) (today : Nat)
    (pending : List (String × Entry)) (subs : List Subdir) (f : String) (e : Entry)
    (h : (f, e) ∈ pending) :
    subHolds (moveAll groupOf today pending subs) f = true := by
  induction pending generalizing subs with
  | nil => simp at h
  | cons p rest ih =>
    obtain ⟨f0, e0⟩ := p
    simp only [moveAll]
    rcases List.mem_cons.mp h with heq | h2
    · injection heq with h1 h2e
      subst h1
      exact subHolds_moveAll_mono _ _ _ _ _ (subHolds_addToSubdir_self _ _ _ _ _)
    · exact ih _ h2

theorem foldl_upsert_any_mono (subs : List Subdir) (acc : List IndexRow)
    (c : String) (today : Nat)
    (h : (acc.any fun r => r.child = c) = true) :
    ((subs.foldl (fun acc2 s => upsertRow acc2 s.name ("Topic group " ++ s.name) today)
        acc).any fun r => r.child = c) = true := by
  induction subs generalizing acc with
  | nil => simpa using h
  | cons s rest ih => exact ih _ (upsertRow_any_mono _ _ _ _ _ h)

theorem foldl_upsert_any_self (subs : List Subdir) (acc : List IndexRow)
    (s : Subdir) (today : Nat) (h : s ∈ subs) :
    ((subs.foldl (fun acc2 s2 => upsertRow acc2 s2.name ("Topic group " ++ s2.name) today)
        acc).any fun r => r.child = s.name) = true := by
  induction subs generalizing acc with
  | nil => simp at h
  | cons s0 rest ih =>
    rcases List.mem_cons.mp h with rfl | h2
    · exact foldl_upsert_any_mono rest _ _ _ (upsertRow_any_self _ _ _ _)
    · exact ih _ h2

theorem length_insertHit (a : Hit) (l : List Hit) :
    (insertHit a l).length = l.length + 1 := by
  induction l with
  | nil => rfl
  | cons b bs ih =>
    by_cases h : hitBefore a b = true
    · simp [insertHit, h]
    · simp [insertHit, h, ih]

theorem length_rankHits (l : List Hit) : (rankHits l).length = l.length := by
  induction l with
  | nil => rfl
  | cons a as ih => simp [rankHits, length_insertHit, ih]

theorem any_name_updateEntryIn (es : List (String × Entry)) (f : String)
    (g : Entry → Entry) (c : String) :
    ((updateEntryIn es f g).any fun p => p.1 = c) = (es.any fun p => p.1 = c) := by
  induction es with
  | nil => rfl
  | cons p rest ih =>
    by_cases h : p.1 = f <;> simp [updateEntryIn, h] at ih ⊢ <;> rw [← ih] <;> simp [h]

theorem subHasName_addToSubdir_self (today : Nat) (g f : String) (e : Entry)
    (subs : List Subdir) :
    subHasName (addToSubdir today g f e subs) f = true := by
  induction subs with
  | nil => simp [addToSubdir, subHasName]
  | cons s rest ih =>
    by_cases h : s.name = g
    · simp only [addToSubdir, if_pos h, subHasName, List.any_cons]
      simp [writeFile_any_self]
    · simp only [addToSubdir, if_neg h, subHasName, List.any_cons]
      rw [subHasName] at ih
      simp [ih]

theorem subHasName_addToSubdir_mono (today : Nat) (g f : String) (e : Entry)
    (subs : List Subdir) (f2 : String) (h : subHasName subs f2 = true) :
    subHasName (addToSubdir today g f e subs) f2 = true := by
  induction subs with
  | nil => simp [subHasName] at h
  | cons s rest ih =>
    rw [subHasName, List.any_cons] at h
    by_cases hn : s.name = g
    · simp only [addToSubdir, if_pos hn, subHasName, List.any_cons]
      rcases Bool.or_eq_true_iff.mp h with h1 | h2
      · simp [writeFile_any_mono _ _ _ _ h1]
      · simp [h2]
    · simp only [addToSubdir, if_neg hn, subHasName, List.any_cons]
      rcases Bool.or_eq_true_iff.mp h with h1 | h2
      · simp [h1]
      · have := ih (by rw [subHasName]; exact h2)
        rw [subHasName] at this
        simp [this]

theorem subHasName_moveAll_mono (groupOf : String → Entry → String) (today : Nat)
    (pending : List (String × Entry)) (subs : List Subdir) (f : String)
    (h : subHasName subs f = true) :
    subHasName (moveAll groupOf today pending subs) f = true := by
  induction pending generalizing subs with
  | nil => simpa [moveAll] using h
  | cons p rest ih =>
    obtain ⟨f0, e0⟩ := p
    exact ih _ (subHasName_addToSubdir_mono _ _ _ _ _ _ h)

theorem subHasName_moveAll_of_mem (groupOf : String → Entry → String) (today : Nat)
    (pending : List (String × Entry)) (subs : List Subdir) (f : String) (e : Entry)
    (h : (f, e) ∈ pending) :
    subHasName (moveAll groupOf today pending subs) f = true := by
  induction pending generalizing subs with
  | nil => simp at h
  | cons p rest ih =>
    obtain ⟨f0, e0⟩ := p
    simp only [moveAll]
    rcases List.mem_cons.mp h with heq | h2
    · injection heq with h1 h2e
      subst h1
      exact subHasName_moveAll_mono _ _ _ _ _ (subHasName_addToSubdir_self _ _ _ _ _)
    · exact ih _ h2

theorem domainHasFile_rebalance (groupOf : String → Entry → String) (today : Nat)
    (d : Domain) (f : String) (h : domainHasFile d f = true) :
    domainHasFile (rebalanceIfNeeded groupOf today d) f = true := by
  by_cases hle : d.entries.length ≤ rebalanceThreshold
  · rwa [rebalanceIfNeeded, if_pos hle]
  · rw [rebalanceIfNeeded, if_neg hle]
    rw [domainHasFile] at h
    rw [domainHasFile]
    apply Bool.or_eq_true_iff.mpr
    right
    rcases Bool.or_eq_true_iff.mp h with h1 | h2
    · rcases List.any_eq_true.mp h1 with ⟨p, hp, hpf⟩
      obtain ⟨f0, e0⟩ := p
      have hf0 : f0 = f := by simpa using hpf
      subst hf0
      exact subHasName_moveAll_of_mem groupOf today d.entries d.subdirs f0 e0 hp
    · exact subHasName_moveAll_mono groupOf today d.entries d.subdirs f h2

theorem domainHasFile_writeItemInDomain (sim : Item → Entry → Bool) (today : Nat)
    (d : Domain) (i : Item) (f : String) (h : domainHasFile d f = true) :
    domainHasFile (writeItemInDomain sim today d i).1 f = true := by
  rw [domainHasFile] at h
  rw [writeItemInDomain]
  cases hfind : dedupFind (sim i) d with
  | none =>
    rw [domainHasFile]
    rcases Bool.or_eq_true_iff.mp h with h1 | h2
    · simp [writeFile_any_mono _ _ _ _ h1]
    · simp [h2]
  | some loc =>
    cases loc with
    | direct f0 =>
      rw [domainHasFile]
      rcases Bool.or_eq_true_iff.mp h with h1 | h2
      · simp [any_name_updateEntryIn, h1]
      · simp [h2]
    | inSub sn f0 =>
      rw [domainHasFile]
      rcases Bool.or_eq_true_iff.mp h with h1 | h2
      · simp [h1]
      · apply Bool.or_eq_true_iff.mpr
        right
        rw [subHasName, List.any_map]
        rw [subHasName] at h2
        apply List.any_eq_true.mpr
        rcases List.any_eq_true.mp h2 with ⟨s, hs, hsf⟩
        refine ⟨s, hs, ?_⟩
        by_cases hn : s.name = sn
        · simpa [hn, any_name_updateEntryIn] using hsf
        · simpa [hn] using hsf

theorem hasFileB_writeDomains (sim : Item → Entry → Bool) (today : Nat) (i : Item)
    (ds : List Domain) (dn f : String)
    (h : (ds.any fun d => d.name = dn && domainHasFile d f) = true) :
    ((writeDomains sim today i ds).1.any fun d => d.name = dn && domainHasFile d f)
      = true := by
  induction ds with
  | nil => simp at h
  | cons d rest ih =>
    rw [List.any_cons] at h
    by_cases hd : d.name = i.domain
    · simp only [writeDomains, if_pos hd, List.any_cons]
      rcases Bool.or_eq_true_iff.mp h with h1 | h2
      · obtain ⟨hname, hfile⟩ := Bool.and_eq_true_iff.mp h1
        apply Bool.or_eq_true_iff.mpr
        left
        apply Bool.and_eq_true_iff.mpr
        constructor
        · have : (writeItemInDomain sim today d i).1.name = d.name := by
            rw [writeItemInDomain]
            cases hfind : dedupFind (sim i) d with
            | none => rfl
            | some loc => cases loc <;> rfl
          rw [this]
          exact hname
        · exact domainHasFile_writeItemInDomain sim today d i f hfile
      · simp [h2]
    · simp only [writeDomains, if_neg hd, List.any_cons]
      rcases Bool.or_eq_true_iff.mp h with h1 | h2
      · simp [h1]
      · simp [ih h2]

theorem hasFileB_ensureDomainDir (ds : List Domain) (n dn f : String)
    (h : (ds.any fun d => d.name = dn && domainHasFile d f) = true) :
    ((ensureDomainDir ds n).any fun d => d.name = dn && domainHasFile d f) = true := by
  induction ds with
  | nil => simp at h
  | cons d rest ih =>
    rw [List.any_cons] at h
    by_cases hn : d.name = n
    · cases hi : d.index with
      | none =>
        simp only [ensureDomainDir, if_pos hn, hi, List.any_cons]
        rcases Bool.or_eq_true_iff.mp h with h1 | h2
        · obtain ⟨hname, hfile⟩ := Bool.and_eq_true_iff.mp h1
          apply Bool.or_eq_true_iff.mpr
          left
          apply Bool.and_eq_true_iff.mpr
          refine ⟨by simpa using hname, ?_⟩
          rw [domainHasFile] at hfile ⊢
          simpa using hfile
        · simp [h2]
      | some rows =>
        simp only [ensureDomainDir, if_pos hn, hi, List.any_cons]
        exact h
    · simp only [ensureDomainDir, if_neg hn, List.any_cons]
      rcases Bool.or_eq_true_iff.mp h with h1 | h2
      · simp [h1]
      · simp [ih h2]

theorem hasFileB_ensureDomain (t : Tree) (n dn f : String)
    (h : hasFileB t dn f = true) : hasFileB (ensureDomain t n) dn f = true := by
  rw [hasFileB] at h ⊢
  exact hasFileB_ensureDomainDir t.domains n dn f h

theorem hasFileB_writeItemTree (sim : Item → Entry → Bool) (today : Nat)
    (t : Tree) (i : Item) (dn f : String) (h : hasFileB t dn f = true) :
    hasFileB (writeItemTree sim today t i).1 dn f = true := by
  rw [writeItemTree]
  have h1 := hasFileB_ensureDomain t i.domain dn f h
  rw [hasFileB] at h1 ⊢
  exact hasFileB_writeDomains sim today i _ dn f h1

theorem hasFileB_writeItemsAux (sim : Item → Entry → Bool) (today : Nat)
    (t : Tree) (items : List Item) (dn f : String) (h : hasFileB t dn f = true) :
    hasFileB (writeItemsAux sim today t items).1 dn f = true := by
  induction items generalizing t with
  | nil => simpa [writeItemsAux] using h
  | cons i rest ih =>
    simp only [writeItemsAux]
    exact ih _ (hasFileB_writeItemTree sim today t i dn f h)

theorem hasFileB_rebalanceDomains (groupOf : String → Entry → String) (today : Nat)
    (touched : List String) (ds : List Domain) (dn f : String)
    (h : (ds.any fun d => d.name = dn && domainHasFile d f) = true) :
    ((rebalanceDomains groupOf today touched ds).any
        fun d => d.name = dn && domainHasFile d f) = true := by
  rw [rebalanceDomains, List.any_map]
  apply List.any_eq_true.mpr
  rcases List.any_eq_true.mp h with ⟨d, hd, hdp⟩
  obtain ⟨hname, hfile⟩ := Bool.and_eq_true_iff.mp hdp
  refine ⟨d, hd, ?_⟩
  have hname2 : d.name = dn := by simpa using hname
  have hrn : (rebalanceIfNeeded groupOf today d).name = d.name := by
    rw [rebalanceIfNeeded]
    by_cases hle : d.entries.length ≤ rebalanceThreshold
    · rw [if_pos hle]
    · rw [if_neg hle]
  simp only [Function.comp_apply]
  split
  · simp [hrn, hname2, domainHasFile_rebalance groupOf today d f hfile]
  · simp [hname2, hfile]

theorem hasFileB_writeEntries (sim : Item → Entry → Bool)
    (groupOf : String → Entry → String) (today : Nat) (t : Tree)
    (items : List Item) (dn f : String) (h : hasFileB t dn f = true) :
    hasFileB (writeEntries sim groupOf today t items).1 dn f = true := by
  rw [writeEntries]
  have h1 := hasFileB_writeItemsAux sim today t items dn f h
  rw [hasFileB] at h1 ⊢
  exact hasFileB_rebalanceDomains groupOf today _ _ dn f h1

theorem hasFileB_initMemoryTree (t : Tree) (dn f : String)
    (h : hasFileB t dn f = true) :
    hasFileB (initMemoryTree (some t)) dn f = true := by
  rw [initMemoryTree]
  have : ∀ (l : List String) (t2 : Tree), hasFileB t2 dn f = true →
      hasFileB (l.foldl ensureDomain t2) dn f = true := by
    intro l
    induction l with
    | nil => intro t2 h2; simpa using h2
    | cons a rest ih =>
      intro t2 h2
      exact ih _ (hasFileB_ensureDomain t2 a dn f h2)
  exact this canonicalDomains t h

theorem mem_upsertRow (rows : List IndexRow) (c s : String) (d : Nat)
    (r : IndexRow) (h : r ∈ upsertRow rows c s d) : r = ⟨c, s, d⟩ ∨ r ∈ rows := by
  induction rows with
  | nil => simpa [upsertRow] using h
  | cons r0 rest ih =>
    by_cases hk : r0.child = c
    · rw [upsertRow, if_pos hk] at h
      rcases List.mem_cons.mp h with h1 | h2
      · exact Or.inl h1
      · exact Or.inr (List.mem_cons_of_mem _ h2)
    · rw [upsertRow, if_neg hk] at h
      rcases List.mem_cons.mp h with h1 | h2
      · exact Or.inr (h1 ▸ List.mem_cons_self _ _)
      · rcases ih h2 with h3 | h4
        · exact Or.inl h3
        · exact Or.inr (List.mem_cons_of_mem _ h4)

theorem pairBij_of_eq (rows2 : List IndexRow) (es2 : List (String × Entry))
    (rows : List IndexRow) (es : List (String × Entry))
    (hrows : rows2.map IndexRow.child = rows.map IndexRow.child)
    (hes : es2.map Prod.fst = es.map Prod.fst)
    (h : PairBij rows es) : PairBij rows2 es2 := by
  obtain ⟨hnd, hc, hr⟩ := h
  refine ⟨hrows ▸ hnd, ?_, ?_⟩
  · intro c hcmem
    rw [hes] at hcmem
    rw [hrows]
    exact hc c hcmem
  · intro r hrmem
    rw [hes]
    have hmem : r.child ∈ rows2.map IndexRow.child := List.mem_map_of_mem _ hrmem
    rw [hrows] at hmem
    rcases List.mem_map.mp hmem with ⟨r0, hr0, hr0c⟩
    rw [← hr0c]
    exact hr r0 hr0

theorem pairBij_write (rows : List IndexRow) (es : List (String × Entry))
    (f s0 : String) (d0 : Nat) (e : Entry) (h : PairBij rows es) :
    PairBij (upsertRow rows f s0 d0) (writeFile es f e) := by
  obtain ⟨hnd, hc, hr⟩ := h
  refine ⟨nodup_child_upsertRow _ _ _ _ hnd, ?_, ?_⟩
  · intro c hcmem
    rcases (mem_name_writeFile es f c e).mp hcmem with h1 | hc2
    · rw [h1]
      exact (mem_child_upsertRow rows f s0 f d0).mpr (Or.inl rfl)
    · exact (mem_child_upsertRow rows f s0 c d0).mpr (Or.inr (hc c hc2))
  · intro r hrmem
    rcases mem_upsertRow rows f s0 d0 r hrmem with h1 | hr2
    · rw [h1]
      exact (mem_name_writeFile es f f e).mpr (Or.inl rfl)
    · exact (mem_name_writeFile es f _ e).mpr (Or.inr (hr r hr2))

theorem nodup_child_filter (rows : List IndexRow) (p : IndexRow → Bool)
    (h : (rows.map IndexRow.child).Nodup) :
    ((rows.filter p).map IndexRow.child).Nodup := by
  induction rows with
  | nil => simp
  | cons r rest ih =>
    rw [List.map_cons, List.nodup_cons] at h
    by_cases hp : p r = true
    · rw [List.filter_cons_of_pos hp, List.map_cons, List.nodup_cons]
      refine ⟨?_, ih h.2⟩
      intro hmem
      rcases List.mem_map.mp hmem with ⟨r0, hr0, hr0c⟩
      apply h.1
      rw [← hr0c]
      exact List.mem_map_of_mem _ (List.mem_of_mem_filter hr0)
    · rw [List.filter_cons_of_neg hp]
      exact ih h.2

theorem mem_foldl_upsert (subs : List Subdir) (acc : List IndexRow)
    (today : Nat) (r : IndexRow)
    (h : r ∈ subs.foldl
        (fun acc2 s2 => upsertRow acc2 s2.name ("Topic group " ++ s2.name) today) acc) :
    r ∈ acc ∨ r.child ∈ subs.map Subdir.name := by
  induction subs generalizing acc with
  | nil => exact Or.inl (by simpa using h)
  | cons s rest ih =>
    rcases ih _ h with h1 | h2
    · rcases mem_upsertRow acc s.name _ today r h1 with rfl | h3
      · exact Or.inr (by simp)
      · exact Or.inl h3
    · exact Or.inr (List.mem_cons_of_mem _ h2)

theorem nodup_foldl_upsert (subs : List Subdir) (acc : List IndexRow) (today : Nat)
    (h : (acc.map IndexRow.child).Nodup) :
    (((subs.foldl
        (fun acc2 s2 => upsertRow acc2 s2.name ("Topic group " ++ s2.name) today)
        acc)).map IndexRow.child).Nodup := by
  induction subs generalizing acc with
  | nil => simpa using h
  | cons s rest ih => exact ih _ (nodup_child_upsertRow _ _ _ _ h)

theorem subName_addToSubdir_mono (today : Nat) (g f : String) (e : Entry)
    (subs : List Subdir) (c : String) (h : c ∈ subs.map Subdir.name) :
    c ∈ (addToSubdir today g f e subs).map Subdir.name := by
  induction subs with
  | nil => simp at h
  | cons s rest ih =>
    rw [List.map_cons] at h
    by_cases hn : s.name = g
    · rw [addToSubdir, if_pos hn, List.map_cons]
      simpa using h
    · rw [addToSubdir, if_neg hn, List.map_cons]
      rcases List.mem_cons.mp h with h1 | h2
      · exact h1 ▸ List.mem_cons_self _ _
      · exact List.mem_cons_of_mem _ (ih h2)

theorem subName_moveAll_mono (groupOf : String → Entry → String) (today : Nat)
    (pending : List (String × Entry)) (subs : List Subdir) (c : String)
    (h : c ∈ subs.map Subdir.name) :
    c ∈ (moveAll groupOf today pending subs).map Subdir.name := by
  induction pending generalizing subs with
  | nil => simpa [moveAll] using h
  | cons p rest ih =>
    obtain ⟨f0, e0⟩ := p
    exact ih _ (subName_addToSubdir_mono _ _ _ _ _ _ h)

theorem any_fst_iff_mem (es : List (String × Entry)) (c : String) :
    (es.any fun p => p.1 = c) = true ↔ c ∈ es.map Prod.fst := by
  rw [List.any_eq_true]
  constructor
  · rintro ⟨p, hp, hpe⟩
    have : p.1 = c := by simpa using hpe
    exact this ▸ List.mem_map_of_mem _ hp
  · intro h
    rcases List.mem_map.mp h with ⟨p, hp, hpe⟩
    exact ⟨p, hp, by simp [hpe]⟩

theorem any_child_iff_mem (rows : List IndexRow) (c : String) :
    (rows.any fun r => r.child = c) = true ↔ c ∈ rows.map IndexRow.child := by
  rw [List.any_eq_true]
  constructor
  · rintro ⟨r, hr, hre⟩
    have : r.child = c := by simpa using hre
    exact this ▸ List.mem_map_of_mem _ hr
  · intro h
    rcases List.mem_map.mp h with ⟨r, hr, hre⟩
    exact ⟨r, hr, by simp [hre]⟩

theorem domainBij_of_eq (d2 d : Domain)
    (hch : domainChildren d2 = domainChildren d)
    (hrows : (d2.index.getD []).map IndexRow.child
        = (d.index.getD []).map IndexRow.child)
    (h : DomainBij d) : DomainBij d2 := by
  obtain ⟨hnd, hc, hr⟩ := h
  refine ⟨hrows ▸ hnd, ?_, ?_⟩
  · intro c hcmem
    rw [hch] at hcmem
    rw [hrows]
    exact hc c hcmem
  · intro r hrmem
    rw [hch]
    have hmem : r.child ∈ (d2.index.getD []).map IndexRow.child :=
      List.mem_map_of_mem _ hrmem
    rw [hrows] at hmem
    rcases List.mem_map.mp hmem with ⟨r0, hr0, hr0c⟩
    rw [← hr0c]
    exact hr r0 hr0

theorem subdirBij_addToSubdir (today : Nat) (g f : String) (e : Entry)
    (subs : List Subdir) (h : ∀ s ∈ subs, SubdirBij s) :
    ∀ s ∈ addToSubdir today g f e subs, SubdirBij s := by
  induction subs with
  | nil =>
    intro s hs
    rw [addToSubdir] at hs
    rcases List.mem_cons.mp hs with h1 | h2
    · subst h1
      exact ⟨by simp, by simp, by simp⟩
    · simp at h2
  | cons s0 rest ih =>
    intro s hs
    by_cases hn : s0.name = g
    · rw [addToSubdir, if_pos hn] at hs
      rcases List.mem_cons.mp hs with h1 | h2
      · subst h1
        exact pairBij_write s0.index s0.entries f e.summary today e
          (h s0 (List.mem_cons_self _ _))
      · exact h s (List.mem_cons_of_mem _ h2)
    · rw [addToSubdir, if_neg hn] at hs
      rcases List.mem_cons.mp hs with h1 | h2
      · exact h1 ▸ h s0 (List.mem_cons_self _ _)
      · exact ih (fun s2 hs2 => h s2 (List.mem_cons_of_mem _ hs2)) s h2

theorem subdirBij_moveAll (groupOf : String → Entry → String) (today : Nat)
    (pending : List (String × Entry)) (subs : List Subdir)
    (h : ∀ s ∈ subs, SubdirBij s) :
    ∀ s ∈ moveAll groupOf today pending subs, SubdirBij s := by
  induction pending generalizing subs with
  | nil => simpa [moveAll] using h
  | cons p rest ih =>
    obtain ⟨f0, e0⟩ := p
    exact ih _ (subdirBij_addToSubdir today _ f0 e0 subs h)

theorem subName_map_updateStep (subs : List Subdir) (sn f0 : String)
    (today : Nat) (i : Item) :
    ((subs.map fun s =>
        if s.name = sn then
          { s with entries := updateEntryIn s.entries f0 (applyUpdate i today)
                 , index := touchRow s.index f0 today }
        else s).map Subdir.name) = subs.map Subdir.name := by
  induction subs with
  | nil => rfl
  | cons s rest ih =>
    by_cases h : s.name = sn <;> simp [h, ih]

theorem domainWF_writeItemInDomain (sim : Item → Entry → Bool) (today : Nat)
    (d : Domain) (i : Item) (h : DomainWF d) :
    DomainWF (writeItemInDomain sim today d i).1 := by
  obtain ⟨hbij, hsubs⟩ := h
  cases hfind : dedupFind (sim i) d with
  | none =>
    simp only [writeItemInDomain, hfind]
    obtain ⟨hnd, hc, hr⟩ := hbij
    refine ⟨⟨?_, ?_, ?_⟩, ?_⟩
    · simpa using nodup_child_upsertRow (d.index.getD []) (slugify i.title) i.content today hnd
    · intro c hcmem
      simp only [domainChildren, List.mem_append] at hcmem
      simp only [Option.getD_some]
      rcases hcmem with hl | hrr
      · rcases (mem_name_writeFile d.entries (slugify i.title) c (newEntry i today)).mp hl
          with h1 | h2
        · rw [h1]
          exact (mem_child_upsertRow _ _ _ _ _).mpr (Or.inl rfl)
        · exact (mem_child_upsertRow _ _ _ _ _).mpr
            (Or.inr (hc c (List.mem_append.mpr (Or.inl h2))))
      · exact (mem_child_upsertRow _ _ _ _ _).mpr
          (Or.inr (hc c (List.mem_append.mpr (Or.inr hrr))))
    · intro r hrmem
      simp only [Option.getD_some] at hrmem
      simp only [domainChildren, List.mem_append]
      rcases mem_upsertRow _ _ _ _ r hrmem with h1 | h2
      · left
        rw [h1]
        exact (mem_name_writeFile d.entries (slugify i.title) _ (newEntry i today)).mpr
          (Or.inl rfl)
      · rcases List.mem_append.mp (hr r h2) with hl | hrr
        · exact Or.inl ((mem_name_writeFile _ _ _ _).mpr (Or.inr hl))
        · exact Or.inr hrr
    · simpa using hsubs
  | some loc =>
    cases loc with
    | direct f0 =>
      simp only [writeItemInDomain, hfind]
      refine ⟨?_, by simpa using hsubs⟩
      apply domainBij_of_eq _ d _ _ hbij
      · simp [domainChildren, map_fst_updateEntryIn]
      · simp [map_child_touchRow]
    | inSub sn f0 =>
      simp only [writeItemInDomain, hfind]
      refine ⟨?_, ?_⟩
      · apply domainBij_of_eq _ d _ _ hbij
        · simp only [domainChildren]
          rw [subName_map_updateStep]
        · simp [map_child_touchRow]
      · intro s hs
        simp only [List.mem_map] at hs
        rcases hs with ⟨s0, hs0, hs0e⟩
        by_cases hn : s0.name = sn
        · rw [← hs0e, if_pos hn]
          exact pairBij_of_eq _ _ s0.index s0.entries
            (map_child_touchRow _ _ _) (map_fst_updateEntryIn _ _ _)
            (hsubs s0 hs0)
        · rw [← hs0e, if_neg hn]
          exact hsubs s0 hs0

theorem domainWF_rebalance (groupOf : String → Entry → String) (today : Nat)
    (d : Domain) (h : DomainWF d) :
    DomainWF (rebalanceIfNeeded groupOf today d) := by
  by_cases hle : d.entries.length ≤ rebalanceThreshold
  · rwa [rebalanceIfNeeded, if_pos hle]
  · rw [rebalanceIfNeeded, if_neg hle]
    obtain ⟨⟨hnd, hc, hr⟩, hsubs⟩ := h
    refine ⟨⟨?_, ?_, ?_⟩, ?_⟩
    · simpa using nodup_foldl_upsert _ _ today (nodup_child_filter _ _ hnd)
    · intro c hcmem
      simp only [domainChildren, List.mem_append, List.map_nil] at hcmem
      rcases hcmem with hl | hrr
      · simp at hl
      · simp only [Option.getD_some]
        rcases List.mem_map.mp hrr with ⟨s, hs, hsn⟩
        rw [← hsn]
        exact (any_child_iff_mem _ _).mp (foldl_upsert_any_self _ _ s today hs)
    · intro r hrmem
      simp only [Option.getD_some] at hrmem
      simp only [domainChildren, List.mem_append, List.map_nil]
      rcases mem_foldl_upsert _ _ today r hrmem with h1 | h2
      · right
        have hfr := List.mem_filter.mp h1
        have hrc := hr r hfr.1
        rcases List.mem_append.mp hrc with hl | hsn
        · exfalso
          have := (any_fst_iff_mem d.entries r.child).mpr hl
          simp [this] at hfr
        · exact subName_moveAll_mono groupOf today d.entries d.subdirs r.child hsn
      · exact Or.inr h2
    · intro s hs
      simp only at hs
      exact subdirBij_moveAll groupOf today d.entries d.subdirs hsubs s hs

theorem findIn_eq_none (m : Entry → Bool) (es : List (String × Entry))
    (h : findIn m es = none) : ∀ p ∈ es, m p.2 = false := by
  induction es with
  | nil => simp
  | cons p rest ih =>
    obtain ⟨f0, e0⟩ := p
    by_cases hm : m e0 = true
    · rw [findIn, if_pos hm] at h
      exact absurd h (by simp)
    · rw [findIn, if_neg hm] at h
      intro q hq
      rcases List.mem_cons.mp hq with h1 | h2
      · rw [h1]
        simpa using hm
      · exact ih h q h2

theorem findIn_some (m : Entry → Bool) (es : List (String × Entry)) (f : String)
    (h : findIn m es = some f) : ∃ e1, (f, e1) ∈ es ∧ m e1 = true := by
  induction es with
  | nil => simp [findIn] at h
  | cons p rest ih =>
    obtain ⟨f0, e0⟩ := p
    by_cases hm : m e0 = true
    · rw [findIn, if_pos hm] at h
      injection h with h1
      exact ⟨e0, by rw [← h1]; exact List.mem_cons_self _ _, hm⟩
    · rw [findIn, if_neg hm] at h
      rcases ih h with ⟨e1, he1, hme⟩
      exact ⟨e1, List.mem_cons_of_mem _ he1, hme⟩

theorem findInSubs_eq_none (m : Entry → Bool) (subs : List Subdir)
    (h : findInSubs m subs = none) :
    ∀ s ∈ subs, ∀ p ∈ s.entries, m p.2 = false := by
  induction subs with
  | nil => simp
  | cons s rest ih =>
    rw [findInSubs] at h
    cases hf : findIn m s.entries with
    | some f => rw [hf] at h; simp at h
    | none =>
      rw [hf] at h
      intro s2 hs2 p hp
      rcases List.mem_cons.mp hs2 with h1 | h2
      · exact findIn_eq_none m s.entries hf p (h1 ▸ hp)
      · exact ih h s2 h2 p hp

theorem findInSubs_some (m : Entry → Bool) (subs : List Subdir) (loc : MatchLoc)
    (h : findInSubs m subs = some loc) :
    ∃ sn f, loc = MatchLoc.inSub sn f
      ∧ ∃ s ∈ subs, s.name = sn ∧ ∃ e1, (f, e1) ∈ s.entries ∧ m e1 = true := by
  induction subs with
  | nil => simp [findInSubs] at h
  | cons s rest ih =>
    rw [findInSubs] at h
    cases hf : findIn m s.entries with
    | some f =>
      rw [hf] at h
      injection h with h1
      rcases findIn_some m s.entries f hf with ⟨e1, he1, hme⟩
      exact ⟨s.name, f, h1.symm, s, List.mem_cons_self _ _, rfl, e1, he1, hme⟩
    | none =>
      rw [hf] at h
      rcases ih h with ⟨sn, f, hloc, s2, hs2, hname, e1, he1, hme⟩
      exact ⟨sn, f, hloc, s2, List.mem_cons_of_mem _ hs2, hname, e1, he1, hme⟩

theorem dedupFind_none_no_match (m : Entry → Bool) (d : Domain)
    (h : dedupFind m d = none) : ∀ p ∈ allEntries d, m p.2 = false := by
  rw [dedupFind] at h
  cases hf : findIn m d.entries with
  | some f => rw [hf] at h; simp at h
  | none =>
    rw [hf] at h
    intro p hp
    rw [allEntries] at hp
    rcases List.mem_append.mp hp with h1 | h2
    · exact findIn_eq_none m d.entries hf p h1
    · rcases List.mem_flatMap.mp h2 with ⟨s, hs, hps⟩
      exact findInSubs_eq_none m d.subdirs h s hs p hps

theorem dedupFind_some_of_titled (m : Entry → Bool) (d : Domain) (T : String)
    (Hm : ∀ e, m e = true ↔ e.title = T) (h : existsTitledB d T = true) :
    ∃ loc, dedupFind m d = some loc := by
  cases hf : dedupFind m d with
  | some loc => exact ⟨loc, rfl⟩
  | none =>
    exfalso
    rcases List.any_eq_true.mp h with ⟨p, hp, hpt⟩
    have ht : p.2.title = T := by simpa using hpt
    have hfalse := dedupFind_none_no_match m d hf p hp
    exact absurd ((Hm p.2).mpr ht) (by simp [hfalse])

theorem count_filter_updateEntryIn (es : List (String × Entry)) (f : String)
    (i : Item) (today : Nat) (T : String) :
    ((updateEntryIn es f (applyUpdate i today)).filter fun p => p.2.title = T).length
      = (es.filter fun p => p.2.title = T).length := by
  induction es with
  | nil => rfl
  | cons p rest ih =>
    simp only [updateEntryIn, List.map_cons] at ih ⊢
    by_cases h : p.1 = f
    · simp only [if_pos h]
      by_cases hT : p.2.title = T
      · rw [List.filter_cons_of_pos (by simp [applyUpdate, hT]),
            List.filter_cons_of_pos (by simp [hT])]
        simp [ih]
      · rw [List.filter_cons_of_neg (by simp [applyUpdate, hT]),
            List.filter_cons_of_neg (by simp [hT])]
        exact ih
    · simp only [if_neg h]
      by_cases hT : p.2.title = T
      · rw [List.filter_cons_of_pos (by simp [hT]),
            List.filter_cons_of_pos (by simp [hT])]
        simp [ih]
      · rw [List.filter_cons_of_neg (by simp [hT]),
            List.filter_cons_of_neg (by simp [hT])]
        exact ih

theorem count_filter_flatMap_updateStep (subs : List Subdir) (sn f0 : String)
    (i : Item) (today : Nat) (T : String) :
    (((subs.map fun s =>
          if s.name = sn then
            { s with entries := updateEntryIn s.entries f0 (applyUpdate i today)
                   , index := touchRow s.index f0 today }
          else s).flatMap fun s => s.entries).filter
        fun p => p.2.title = T).length
      = ((subs.flatMap fun s => s.entries).filter fun p => p.2.title = T).length := by
  induction subs with
  | nil => rfl
  | cons s rest ih =>
    simp only [List.map_cons, List.flatMap_cons, List.filter_append, List.length_append]
    by_cases h : s.name = sn
    · simp only [if_pos h]
      rw [count_filter_updateEntryIn]
      simp only [List.map_cons, List.flatMap_cons, List.filter_append,
        List.length_append] at ih
      omega
    · simp only [if_neg h]
      simp only [List.map_cons, List.flatMap_cons, List.filter_append,
        List.length_append] at ih
      omega

theorem names_flatNames_updateStep (subs : List Subdir) (sn f0 : String)
    (i : Item) (today : Nat) :
    ((subs.map fun s =>
        if s.name = sn then
          { s with entries := updateEntryIn s.entries f0 (applyUpdate i today)
                 , index := touchRow s.index f0 today }
        else s).map fun s => s.entries.map Prod.fst)
      = subs.map fun s => s.entries.map Prod.fst := by
  induction subs with
  | nil => rfl
  | cons s rest ih =>
    by_cases h : s.name = sn <;> simp [h, map_fst_updateEntryIn, ih]

theorem count_title_writeFile_fresh (es : List (String × Entry)) (f : String)
    (e : Entry) (T : String) (hT : e.title = T)
    (hnone : ∀ p ∈ es, ¬ p.2.title = T) :
    ((writeFile es f e).filter fun p => p.2.title = T).length = 1 := by
  induction es with
  | nil => simp [writeFile, hT]
  | cons p rest ih =>
    obtain ⟨g, e0⟩ := p
    by_cases hg : g = f
    · rw [writeFile, if_pos hg]
      rw [List.filter_cons_of_pos (by simp [hT])]
      have hnil : (rest.filter fun p => p.2.title = T) = [] := by
        rw [List.filter_eq_nil]
        intro q hq
        simpa using hnone q (List.mem_cons_of_mem _ hq)
      simp [hnil]
    · rw [writeFile, if_neg hg]
      rw [List.filter_cons_of_neg
        (by simpa using hnone (g, e0) (List.mem_cons_self _ _))]
      exact ih (fun q hq => hnone q (List.mem_cons_of_mem _ hq))

theorem existsTitledB_of_count_pos (d : Domain) (T : String)
    (h : 0 < countD d T) : existsTitledB d T = true := by
  rw [countD] at h
  rw [existsTitledB]
  obtain ⟨p, hp⟩ := List.exists_mem_of_length_pos h
  have hpf := List.mem_filter.mp hp
  exact List.any_eq_true.mpr ⟨p, hpf.1, hpf.2⟩

theorem count_pos_of_mem_titled (d : Domain) (T : String) (q : String × Entry)
    (hq : q ∈ allEntries d) (ht : q.2.title = T) : 0 < countD d T := by
  rw [countD]
  apply List.length_pos_of_mem
  exact List.mem_filter.mpr ⟨hq, by simpa using ht⟩

theorem length_writeFile_le (es : List (String × Entry)) (f : String) (e : Entry) :
    (writeFile es f e).length ≤ es.length + 1 := by
  induction es with
  | nil => simp [writeFile]
  | cons p rest ih =>
    obtain ⟨g, e0⟩ := p
    by_cases hg : g = f
    · simp [writeFile, hg]
    · simp only [writeFile, if_neg hg, List.length_cons]
      omega

theorem mem_updateEntryIn_image (es : List (String × Entry)) (f : String)
    (g : Entry → Entry) (e : Entry) (h : (f, e) ∈ es) :
    (f, g e) ∈ updateEntryIn es f g := by
  rw [updateEntryIn]
  have himg : ((fun p : String × Entry => if p.1 = f then (p.1, g p.2) else p) (f, e))
      = (f, g e) := by simp
  rw [← himg]
  exact List.mem_map_of_mem _ h

theorem mem_allEntries_of_pairIn (d : Domain) (f : String) (e : Entry)
    (h : pairInDomainB d f e = true) : (f, e) ∈ allEntries d := by
  rw [pairInDomainB] at h
  rw [allEntries]
  rcases Bool.or_eq_true_iff.mp h with h1 | h2
  · rcases List.any_eq_true.mp h1 with ⟨p, hp, hpe⟩
    have hpe2 : p = (f, e) := by simpa using hpe
    exact List.mem_append.mpr (Or.inl (hpe2 ▸ hp))
  · rcases List.any_eq_true.mp h2 with ⟨s, hs, hse⟩
    rcases List.any_eq_true.mp hse with ⟨p, hp, hpe⟩
    have hpe2 : p = (f, e) := by simpa using hpe
    exact List.mem_append.mpr (Or.inr (List.mem_flatMap.mpr ⟨s, hs, hpe2 ▸ hp⟩))

theorem writeItemInDomain_update (sim : Item → Entry → Bool) (today : Nat)
    (d : Domain) (i : Item) (loc : MatchLoc)
    (hfind : dedupFind (sim i) d = some loc) :
    (∃ f, (writeItemInDomain sim today d i).2 = WriteAction.updated f)
    ∧ domainListing (writeItemInDomain sim today d i).1 = domainListing d
    ∧ (∀ T, countD (writeItemInDomain sim today d i).1 T = countD d T)
    ∧ (∃ f e1, pairInDomainB d f e1 = true ∧ sim i e1 = true ∧
        pairInDomainB (writeItemInDomain sim today d i).1 f
          (applyUpdate i today e1) = true)
    ∧ (writeItemInDomain sim today d i).1.entries.length = d.entries.length := by
  cases loc with
  | direct f =>
    have hfi : findIn (sim i) d.entries = some f := by
      rw [dedupFind] at hfind
      cases hf : findIn (sim i) d.entries with
      | some f2 =>
        rw [hf] at hfind
        injection hfind with h1
        injection h1 with h2
        rw [h2]
      | none =>
        exfalso
        rw [hf] at hfind
        rcases findInSubs_some _ _ _ hfind with ⟨sn, f2, hloc, _⟩
        simp at hloc
    rcases findIn_some _ _ _ hfi with ⟨e1, he1, hsim⟩
    refine ⟨⟨f, by simp [writeItemInDomain, hfind]⟩, ?_, ?_, ?_, ?_⟩
    · simp only [writeItemInDomain, hfind]
      simp [domainListing, map_fst_updateEntryIn]
    · intro T
      simp only [writeItemInDomain, hfind]
      rw [countD, countD]
      simp only [allEntries]
      rw [List.filter_append, List.filter_append, List.length_append,
          List.length_append, count_filter_updateEntryIn]
    · refine ⟨f, e1, ?_, hsim, ?_⟩
      · rw [pairInDomainB]
        apply Bool.or_eq_true_iff.mpr
        left
        exact List.any_eq_true.mpr ⟨(f, e1), he1, by simp⟩
      · simp only [writeItemInDomain, hfind]
        rw [pairInDomainB]
        apply Bool.or_eq_true_iff.mpr
        left
        exact List.any_eq_true.mpr
          ⟨(f, applyUpdate i today e1), mem_updateEntryIn_image _ _ _ _ he1, by simp⟩
    · simp only [writeItemInDomain, hfind]
      simp [updateEntryIn]
  | inSub sn f =>
    have hsub : findInSubs (sim i) d.subdirs = some (MatchLoc.inSub sn f) := by
      rw [dedupFind] at hfind
      cases hf : findIn (sim i) d.entries with
      | some f2 =>
        rw [hf] at hfind
        injection hfind with h1
        simp at h1
      | none =>
        rw [hf] at hfind
        exact hfind
    rcases findInSubs_some _ _ _ hsub with ⟨sn2, f2, hloc, s, hs, hname, e1, he1, hsim⟩
    injection hloc with h1 h2
    subst h1
    subst h2
    refine ⟨⟨f, by simp [writeItemInDomain, hfind]⟩, ?_, ?_, ?_, ?_⟩
    · simp only [writeItemInDomain, hfind]
      simp only [domainListing]
      rw [names_flatNames_updateStep]
    · intro T
      simp only [writeItemInDomain, hfind]
      rw [countD, countD]
      simp only [allEntries]
      rw [List.filter_append, List.filter_append, List.length_append,
          List.length_append, count_filter_flatMap_updateStep]
    · refine ⟨f, e1, ?_, hsim, ?_⟩
      · rw [pairInDomainB]
        apply Bool.or_eq_true_iff.mpr
        right
        exact List.any_eq_true.mpr
          ⟨s, hs, List.any_eq_true.mpr ⟨(f, e1), he1, by simp⟩⟩
      · simp only [writeItemInDomain, hfind]
        rw [pairInDomainB]
        apply Bool.or_eq_true_iff.mpr
        right
        apply List.any_eq_true.mpr
        refine ⟨{ s with entries := updateEntryIn s.entries f (applyUpdate i today)
                       , index := touchRow s.index f today }, ?_, ?_⟩
        · apply List.mem_map.mpr
          exact ⟨s, hs, by rw [if_pos hname]⟩
        · apply List.any_eq_true.mpr
          exact ⟨(f, applyUpdate i today e1),
            mem_updateEntryIn_image _ _ _ _ he1, by simp⟩
    · simp only [writeItemInDomain, hfind]

theorem writeItemInDomain_create (sim : Item → Entry → Bool) (today : Nat)
    (d : Domain) (i : Item)
    (hfind : dedupFind (sim i) d = none)
    (Hi : ∀ e, sim i e = true ↔ e.title = i.title) :
    (writeItemInDomain sim today d i).2 = WriteAction.created (slugify i.title)
    ∧ countD (writeItemInDomain sim today d i).1 i.title = 1
    ∧ (writeItemInDomain sim today d i).1.entries.length ≤ d.entries.length + 1 := by
  have hno : ∀ p ∈ allEntries d, ¬ p.2.title = i.title := by
    intro p hp ht
    have hfalse := dedupFind_none_no_match _ _ hfind p hp
    exact absurd ((Hi p.2).mpr ht) (by simp [hfalse])
  refine ⟨by simp [writeItemInDomain, hfind], ?_, ?_⟩
  · simp only [writeItemInDomain, hfind]
    rw [countD]
    simp only [allEntries]
    rw [List.filter_append, List.length_append]
    have hdirect := count_title_writeFile_fresh d.entries (slugify i.title)
      (newEntry i today) i.title (by simp [newEntry])
      (fun p hp => hno p (by rw [allEntries]; exact List.mem_append.mpr (Or.inl hp)))
    have hsubnil : ((d.subdirs.flatMap fun s => s.entries).filter
        fun p => p.2.title = i.title) = [] := by
      rw [List.filter_eq_nil]
      intro p hp
      simpa using hno p (by rw [allEntries]; exact List.mem_append.mpr (Or.inr hp))
    rw [hdirect, hsubnil]
    rfl
  · simp only [writeItemInDomain, hfind]
    exact length_writeFile_le d.entries (slugify i.title) (newEntry i today)

theorem writeItem_dedup_core (sim : Item → Entry → Bool) (today1 today2 : Nat)
    (d : Domain) (i j : Item)
    (Hi : ∀ e, sim i e = true ↔ e.title = i.title)
    (Hj : ∀ e, sim j e = true ↔ e.title = j.title)
    (Hjt : j.title = i.title)
    (Hclean : countD d i.title ≤ 1) :
    countD (writeItemInDomain sim today2
        (writeItemInDomain sim today1 d i).1 j).1 i.title ≤ 1
    ∧ (∃ f, (writeItemInDomain sim today2
        (writeItemInDomain sim today1 d i).1 j).2 = WriteAction.updated f)
    ∧ domainListing (writeItemInDomain sim today2
        (writeItemInDomain sim today1 d i).1 j).1
        = domainListing (writeItemInDomain sim today1 d i).1
    ∧ (∃ f e1, pairInDomainB (writeItemInDomain sim today1 d i).1 f e1 = true
        ∧ e1.title = i.title
        ∧ pairInDomainB (writeItemInDomain sim today2
              (writeItemInDomain sim today1 d i).1 j).1 f
            { e1 with details := e1.details ++ [j.content]
                    , tags := unionTags e1.tags j.tags
                    , updated := today2 } = true)
    ∧ (writeItemInDomain sim today1 d i).1.entries.length ≤ d.entries.length + 1
    ∧ (writeItemInDomain sim today2
        (writeItemInDomain sim today1 d i).1 j).1.entries.length
        = (writeItemInDomain sim today1 d i).1.entries.length := by
  have hstep1 : countD (writeItemInDomain sim today1 d i).1 i.title ≤ 1
      ∧ existsTitledB (writeItemInDomain sim today1 d i).1 i.title = true
      ∧ (writeItemInDomain sim today1 d i).1.entries.length ≤ d.entries.length + 1 := by
    cases hfind1 : dedupFind (sim i) d with
    | some loc1 =>
      obtain ⟨_, _, hcount, ⟨f, e1, hpair, hsim, hpair2⟩, hlen⟩ :=
        writeItemInDomain_update sim today1 d i loc1 hfind1
      refine ⟨by rw [hcount]; exact Hclean, ?_, by omega⟩
      apply existsTitledB_of_count_pos
      rw [hcount]
      exact count_pos_of_mem_titled d i.title (f, e1)
        (mem_allEntries_of_pairIn d f e1 hpair) ((Hi e1).mp hsim)
    | none =>
      obtain ⟨_, hcount1, hlen⟩ := writeItemInDomain_create sim today1 d i hfind1 Hi
      exact ⟨by rw [hcount1], existsTitledB_of_count_pos _ _ (by rw [hcount1]; omega),
        hlen⟩
  obtain ⟨hc1, hex1, hlen1⟩ := hstep1
  have hex1j : existsTitledB (writeItemInDomain sim today1 d i).1 j.title = true := by
    rw [Hjt]
    exact hex1
  obtain ⟨loc2, hfind2⟩ :=
    dedupFind_some_of_titled (sim j) (writeItemInDomain sim today1 d i).1 j.title Hj hex1j
  obtain ⟨hact2, hlist2, hcount2, ⟨f2, e2, hpairA, hsimA, hpairB2⟩, hlen2⟩ :=
    writeItemInDomain_update sim today2 (writeItemInDomain sim today1 d i).1 j loc2 hfind2
  refine ⟨by rw [hcount2]; exact hc1, hact2, hlist2, ?_, hlen1, hlen2⟩
  exact ⟨f2, e2, hpairA, ((Hj e2).mp hsimA).trans Hjt, hpairB2⟩

theorem rebalanceIfNeeded_of_le (groupOf : String → Entry → String) (today : Nat)
    (d : Domain) (h : d.entries.length ≤ rebalanceThreshold) :
    rebalanceIfNeeded groupOf today d = d := by
  rw [rebalanceIfNeeded, if_pos h]

theorem rebalanceIfNeeded_name (groupOf : String → Entry → String) (today : Nat)
    (d : Domain) : (rebalanceIfNeeded groupOf today d).name = d.name := by
  rw [rebalanceIfNeeded]
  by_cases hle : d.entries.length ≤ rebalanceThreshold
  · rw [if_pos hle]
  · rw [if_neg hle]

theorem writeItemInDomain_name (sim : Item → Entry → Bool) (today : Nat)
    (d : Domain) (i : Item) :
    (writeItemInDomain sim today d i).1.name = d.name := by
  rw [writeItemInDomain]
  cases hfind : dedupFind (sim i) d with
  | none => rfl
  | some loc => cases loc <;> rfl

theorem writeItemInDomain_index_isSome (sim : Item → Entry → Bool) (today : Nat)
    (d : Domain) (i : Item) :
    (writeItemInDomain sim today d i).1.index.isSome = true := by
  rw [writeItemInDomain]
  cases hfind : dedupFind (sim i) d with
  | none => rfl
  | some loc => cases loc <;> rfl

theorem fixIndex_fields (d : Domain) :
    (fixIndex d).name = d.name ∧ (fixIndex d).entries = d.entries
      ∧ (fixIndex d).subdirs = d.subdirs := by
  rw [fixIndex]
  cases d.index <;> exact ⟨rfl, rfl, rfl⟩

theorem fixIndex_of_isSome (d : Domain) (h : d.index.isSome = true) :
    fixIndex d = d := by
  rw [fixIndex]
  cases hi : d.index with
  | none => rw [hi] at h; simp at h
  | some rows => rfl

theorem countD_fixIndex (d : Domain) (T : String) :
    countD (fixIndex d) T = countD d T := by
  rw [countD, countD, allEntries, allEntries,
      (fixIndex_fields d).2.1, (fixIndex_fields d).2.2]

theorem countD_emptyDomain (n T : String) : countD (emptyDomain n) T = 0 := rfl

theorem find?_ensureDomainDir_none (ds : List Domain) (n : String)
    (h : ds.find? (fun d => d.name = n) = none) :
    (ensureDomainDir ds n).find? (fun d => d.name = n) = some (emptyDomain n) := by
  induction ds with
  | nil =>
    rw [ensureDomainDir]
    rw [List.find?_cons_of_pos _ (by simp [emptyDomain])]
  | cons d rest ih =>
    by_cases hp : d.name = n
    · rw [List.find?_cons_of_pos _ (by simpa using hp)] at h
      exact absurd h (by simp)
    · rw [List.find?_cons_of_neg _ (by simpa using hp)] at h
      rw [ensureDomainDir, if_neg hp]
      rw [List.find?_cons_of_neg _ (by simpa using hp)]
      exact ih h

theorem find?_ensureDomainDir_some (ds : List Domain) (n : String) (d0 : Domain)
    (h : ds.find? (fun d => d.name = n) = some d0) :
    (ensureDomainDir ds n).find? (fun d => d.name = n) = some (fixIndex d0) := by
  induction ds with
  | nil => simp at h
  | cons d rest ih =>
    by_cases hp : d.name = n
    · rw [List.find?_cons_of_pos _ (by simpa using hp)] at h
      injection h with h1
      subst h1
      cases hi : d.index with
      | none =>
        simp only [ensureDomainDir, if_pos hp, hi]
        rw [List.find?_cons_of_pos _ (by simpa using hp)]
        simp [fixIndex, hi]
      | some rows =>
        simp only [ensureDomainDir, if_pos hp, hi]
        rw [List.find?_cons_of_pos _ (by simpa using hp)]
        simp [fixIndex, hi]
    · rw [List.find?_cons_of_neg _ (by simpa using hp)] at h
      rw [ensureDomainDir, if_neg hp]
      rw [List.find?_cons_of_neg _ (by simpa using hp)]
      exact ih h

theorem writeDomains_find? (sim : Item → Entry → Bool) (today : Nat) (i : Item)
    (ds : List Domain) (d0 : Domain)
    (h : ds.find? (fun d => d.name = i.domain) = some d0) :
    (writeDomains sim today i ds).1.find? (fun d => d.name = i.domain)
        = some (writeItemInDomain sim today d0 i).1
    ∧ (writeDomains sim today i ds).2 = some (writeItemInDomain sim today d0 i).2 := by
  induction ds with
  | nil => simp at h
  | cons d rest ih =>
    by_cases hp : d.name = i.domain
    · rw [List.find?_cons_of_pos _ (by simpa using hp)] at h
      injection h with h1
      subst h1
      constructor
      · simp only [writeDomains, if_pos hp]
        rw [List.find?_cons_of_pos _ (by simp [writeItemInDomain_name, hp])]
      · simp only [writeDomains, if_pos hp]
    · rw [List.find?_cons_of_neg _ (by simpa using hp)] at h
      obtain ⟨ih1, ih2⟩ := ih h
      constructor
      · simp only [writeDomains, if_neg hp]
        rw [List.find?_cons_of_neg _ (by simpa using hp)]
        exact ih1
      · simp only [writeDomains, if_neg hp]
        exact ih2

theorem rebalanceDomains_find? (groupOf : String → Entry → String) (today : Nat)
    (touched : List String) (ds : List Domain) (n : String) (d0 : Domain)
    (h : ds.find? (fun d => d.name = n) = some d0) :
    (rebalanceDomains groupOf today touched ds).find? (fun d => d.name = n)
      = some (if (touched.any fun m => m = d0.name)
                then rebalanceIfNeeded groupOf today d0 else d0) := by
  induction ds with
  | nil => simp at h
  | cons d rest ih =>
    by_cases hp : d.name = n
    · rw [List.find?_cons_of_pos _ (by simpa using hp)] at h
      injection h with h1
      subst h1
      rw [rebalanceDomains, List.map_cons]
      rw [List.find?_cons_of_pos]
      by_cases hc : (touched.any fun m => m = d.name) = true
      · rw [if_pos hc]
        simp [hc, rebalanceIfNeeded_name, hp]
      · rw [if_neg hc]
        simp [hp]
    · rw [List.find?_cons_of_neg _ (by simpa using hp)] at h
      rw [rebalanceDomains, List.map_cons]
      rw [List.find?_cons_of_neg]
      · have := ih h
        rw [rebalanceDomains] at this
        exact this
      · by_cases hc : (touched.any fun m => m = d.name) = true
        · rw [if_pos hc]
          simp [rebalanceIfNeeded_name, hp]
        · rw [if_neg hc]
          simpa using hp

theorem writeEntries_single (sim : Item → Entry → Bool)
    (groupOf : String → Entry → String) (today : Nat) (t : Tree) (i : Item) :
    (writeEntries sim groupOf today t [i]).1.domains
        = rebalanceDomains groupOf today [i.domain]
            (writeItemTree sim today t i).1.domains
    ∧ (writeEntries sim groupOf today t [i]).2
        = [(writeItemTree sim today t i).2] := by
  constructor <;> rfl

theorem writeItemTree_fields (sim : Item → Entry → Bool) (today : Nat)
    (t : Tree) (i : Item) :
    (writeItemTree sim today t i).1.domains
        = (writeDomains sim today i (ensureDomainDir t.domains i.domain)).1
    ∧ (writeItemTree sim today t i).2
        = ((writeDomains sim today i (ensureDomainDir t.domains i.domain)).2).getD
            (WriteAction.created (slugify i.title)) := by
  constructor <;> rfl

theorem hasPairB_of_domainOf (t : Tree) (dn f : String) (e : Entry) (d : Domain)
    (hd : domainOf t dn = some d) (hp : pairInDomainB d f e = true) :
    hasPairB t dn f e = true := by
  rw [hasPairB]
  apply List.any_eq_true.mpr
  refine ⟨d, List.mem_of_find?_eq_some hd, ?_⟩
  have hpred := List.find?_some hd
  simp only [Bool.and_eq_true]
  exact ⟨by simpa using hpred, hp⟩

theorem writeEntries_single_step (sim : Item → Entry → Bool)
    (groupOf : String → Entry → String) (today : Nat) (t : Tree) (i : Item)
    (D0 : Domain)
    (hfind : (ensureDomainDir t.domains i.domain).find? (fun d => d.name = i.domain)
        = some D0)
    (hsz : (writeItemInDomain sim today D0 i).1.entries.length ≤ rebalanceThreshold) :
    domainOf (writeEntries sim groupOf today t [i]).1 i.domain
        = some (writeItemInDomain sim today D0 i).1
    ∧ (writeEntries sim groupOf today t [i]).2
        = [(writeItemInDomain sim today D0 i).2] := by
  obtain ⟨h2a, h2b⟩ := writeDomains_find? sim today i _ D0 hfind
  constructor
  · rw [domainOf]
    rw [(writeEntries_single sim groupOf today t i).1,
        (writeItemTree_fields sim today t i).1]
    rw [rebalanceDomains_find? groupOf today [i.domain] _ i.domain _ h2a]
    have hname : (writeItemInDomain sim today D0 i).1.name = i.domain := by
      rw [writeItemInDomain_name]
      have := List.find?_some hfind
      simpa using this
    have hcond : ([i.domain].any
        fun m => m = (writeItemInDomain sim today D0 i).1.name) = true := by
      simp [hname]
    rw [if_pos hcond, rebalanceIfNeeded_of_le groupOf today _ hsz]
  · rw [(writeEntries_single sim groupOf today t i).2,
        (writeItemTree_fields sim today t i).2, h2b]
    rfl

theorem domainWF_emptyDomain (n : String) : DomainWF (emptyDomain n) :=
  ⟨⟨by simp [emptyDomain, defaultDomainIndex],
    by simp [emptyDomain, domainChildren, defaultDomainIndex],
    by simp [emptyDomain, defaultDomainIndex]⟩,
   by simp [emptyDomain]⟩

theorem treeWF_ensureDomainDir (ds : List Domain) (n : String)
    (h : ∀ d ∈ ds, DomainWF d) : ∀ d ∈ ensureDomainDir ds n, DomainWF d := by
  induction ds with
  | nil =>
    intro d hd
    rw [ensureDomainDir] at hd
    rcases List.mem_cons.mp hd with h1 | h2
    · exact h1 ▸ domainWF_emptyDomain n
    · simp at h2
  | cons d0 rest ih =>
    intro d hd
    by_cases hn : d0.name = n
    · cases hi : d0.index with
      | none =>
        simp only [ensureDomainDir, if_pos hn, hi] at hd
        rcases List.mem_cons.mp hd with h1 | h2
        · subst h1
          obtain ⟨hbij, hsubs⟩ := h d0 (List.mem_cons_self _ _)
          refine ⟨?_, by simpa using hsubs⟩
          apply domainBij_of_eq _ d0 _ _ hbij
          · simp [domainChildren]
          · simp [hi, defaultDomainIndex]
        · exact h d (List.mem_cons_of_mem _ h2)
      | some rows =>
        simp only [ensureDomainDir, if_pos hn, hi] at hd
        rcases List.mem_cons.mp hd with h1 | h2
        · exact h1 ▸ h d0 (List.mem_cons_self _ _)
        · exact h d (List.mem_cons_of_mem _ h2)
    · simp only [ensureDomainDir, if_neg hn] at hd
      rcases List.mem_cons.mp hd with h1 | h2
      · exact h1 ▸ h d0 (List.mem_cons_self _ _)
      · exact ih (fun d2 hd2 => h d2 (List.mem_cons_of_mem _ hd2)) d h2

theorem treeWF_writeDomains (sim : Item → Entry → Bool) (today : Nat) (i : Item)
    (ds : List Domain) (h : ∀ d ∈ ds, DomainWF d) :
    ∀ d ∈ (writeDomains sim today i ds).1, DomainWF d := by
  induction ds with
  | nil => intro d hd; simp [writeDomains] at hd
  | cons d0 rest ih =>
    intro d hd
    by_cases hn : d0.name = i.domain
    · simp only [writeDomains, if_pos hn] at hd
      rcases List.mem_cons.mp hd with h1 | h2
      · exact h1 ▸ domainWF_writeItemInDomain sim today d0 i
          (h d0 (List.mem_cons_self _ _))
      · exact h d (List.mem_cons_of_mem _ h2)
    · simp only [writeDomains, if_neg hn] at hd
      rcases List.mem_cons.mp hd with h1 | h2
      · exact h1 ▸ h d0 (List.mem_cons_self _ _)
      · exact ih (fun d2 hd2 => h d2 (List.mem_cons_of_mem _ hd2)) d h2

theorem treeWF_writeItemTree (sim : Item → Entry → Bool) (today : Nat)
    (t : Tree) (i : Item) (h : TreeWF t) :
    TreeWF (writeItemTree sim today t i).1 := by
  rw [writeItemTree]
  intro d hd
  exact treeWF_writeDomains sim today i _
    (treeWF_ensureDomainDir t.domains i.domain h) d hd

theorem treeWF_writeItemsAux (sim : Item → Entry → Bool) (today : Nat)
    (t : Tree) (items : List Item) (h : TreeWF t) :
    TreeWF (writeItemsAux sim today t items).1 := by
  induction items generalizing t with
  | nil => simpa [writeItemsAux] using h
  | cons i rest ih =>
    simp only [writeItemsAux]
    exact ih _ (treeWF_writeItemTree sim today t i h)

theorem treeWF_rebalanceDomains (groupOf : String → Entry → String) (today : Nat)
    (touched : List String) (ds : List Domain) (h : ∀ d ∈ ds, DomainWF d) :
    ∀ d ∈ rebalanceDomains groupOf today touched ds, DomainWF d := by
  intro d hd
  rw [rebalanceDomains] at hd
  rcases List.mem_map.mp hd with ⟨d0, hd0, hde⟩
  by_cases ht : (touched.any fun n => n = d0.name) = true
  · rw [← hde, if_pos ht]
    exact domainWF_rebalance groupOf today d0 (h d0 hd0)
  · rw [← hde, if_neg ht]
    exact h d0 hd0

theorem hasPairB_supersede (t : Tree) (dn f : String) (e : Entry)
    (h : hasPairB t dn f e = true) :
    hasPairB (supersedeEntry t dn f) dn f (archiveEntry e) = true := by
  rw [hasPairB] at h
  rw [supersedeEntry, hasPairB, List.any_map]
  apply List.any_eq_true.mpr
  rcases List.any_eq_true.mp h with ⟨d, hd, hdp⟩
  obtain ⟨hname, hpair⟩ := Bool.and_eq_true_iff.mp hdp
  refine ⟨d, hd, ?_⟩
  have hname2 : d.name = dn := by simpa using hname
  simp only [Function.comp, if_pos hname2]
  apply Bool.and_eq_true_iff.mpr
  refine ⟨by simpa using hname2, ?_⟩
  rcases Bool.or_eq_true_iff.mp hpair with h1 | h2
  · apply Bool.or_eq_true_iff.mpr
    left
    rcases List.any_eq_true.mp h1 with ⟨p, hp, hpe⟩
    have hpe2 : p = (f, e) := by simpa using hpe
    subst hpe2
    apply List.any_eq_true.mpr
    exact ⟨(f, archiveEntry e), mem_updateEntryIn_image d.entries f archiveEntry e hp, by simp⟩
  · apply Bool.or_eq_true_iff.mpr
    right
    rw [List.any_map]
    rcases List.any_eq_true.mp h2 with ⟨s, hs, hsp⟩
    apply List.any_eq_true.mpr
    refine ⟨s, hs, ?_⟩
    rcases List.any_eq_true.mp hsp with ⟨p, hp, hpe⟩
    have hpe2 : p = (f, e) := by simpa using hpe
    subst hpe2
    apply List.any_eq_true.mpr
    exact ⟨(f, archiveEntry e),
      mem_updateEntryIn_image s.entries f archiveEntry e hp, by simp⟩

end Memory

/-- Claim C8: the newer API template module requires a defined string
projectName. Called with no argument, as the full-stack branch of
setup.mjs main does, it fails with a TypeError on projectName.replace
instead of returning a template list, so template collection for the
full-stack configuration produces an error and no template file is
produced: the full-stack run exits with status 1 having written
nothing. -/
theorem C8_api_templates_need_project_name (rootTemplates : List String) :
    Setup.getApiTemplates none
        = Except.error ⟨"TypeError: cannot read replace of undefined"⟩
    ∧ Setup.collectFiles rootTemplates true
        = Except.error ⟨"TypeError: cannot read replace of undefined"⟩
    ∧ (Setup.setupMain rootTemplates "2" (Setup.startWorld false)).written = []
    ∧ (Setup.setupMain rootTemplates "2" (Setup.startWorld false)).exitCode = some 1 := by
  refine ⟨rfl, rfl, ?_, ?_⟩ <;> simp [Setup.setupMain, Setup.collectFiles,
    Setup.getApiTemplates, Setup.jsReplaceAll, Setup.startWorld, bind, Except.bind]

/-- Claim C9: if the apps directory already exists under the project
root, setup.mjs main prints an error and exits with status 1 before
prompting the user, writing any template file, modifying README.md, or
running any command; the filesystem state is otherwise unchanged. -/
theorem C9_setup_exits_early_when_apps_exists
    (rootTemplates : List String) (choice : String) (w : Setup.SetupWorld)
    (h : w.appsExists = true) :
    (Setup.setupMain rootTemplates choice w).exitCode = some 1
    ∧ (Setup.setupMain rootTemplates choice w).written = w.written
    ∧ (Setup.setupMain rootTemplates choice w).removed = w.removed
    ∧ (Setup.setupMain rootTemplates choice w).readmeUpdated = w.readmeUpdated
    ∧ (Setup.setupMain rootTemplates choice w).commands = w.commands
    ∧ (Setup.setupMain rootTemplates choice w).prompted = w.prompted := by
  simp [Setup.setupMain, h]

/-- Witness for C9: a concrete already-scaffolded world exits with
status 1, untouched and unprompted. -/
theorem C9_witness :
    (Setup.setupMain [] "1" (Setup.startWorld true)).exitCode = some 1
    ∧ (Setup.setupMain [] "1" (Setup.startWorld true)).written = []
    ∧ (Setup.setupMain [] "1" (Setup.startWorld true)).prompted = false := by
  have h := C9_setup_exits_early_when_apps_exists [] "1" (Setup.startWorld true) rfl
  exact ⟨h.1, h.2.1, h.2.2.2.2.2⟩

/-- Claim C1: writing the same (title, domain) pair twice leaves at most
one entry file for that pair, with the second write taking the UPDATE
branch — appending its content under the existing entry's Details
section, unioning the tag sets and leaving the created date — instead of
creating a second file: the target domain's file listing is unchanged by
the second call. The similarity judgment is the pluggable parameter the
spec prescribes; the hypotheses pin its verdict on these two items to
title equality. The pair is assumed fresh-or-unique in the starting tree
(at most one entry of that title) and the domain below the rebalance
threshold, so the write does not trigger a topic split. -/
theorem C1_second_write_updates (sim : Memory.Item → Memory.Entry → Bool)
    (groupOf : String → Memory.Entry → String) (today1 today2 : Nat)
    (t : Memory.Tree) (i j : Memory.Item)
    (Hi : ∀ e, sim i e = true ↔ e.title = i.title)
    (Hj : ∀ e, sim j e = true ↔ e.title = j.title)
    (Hjt : j.title = i.title) (Hjd : j.domain = i.domain)
    (Hclean : Memory.countTitled t i.domain i.title ≤ 1)
    (Hsize : Memory.directCount t i.domain < Memory.rebalanceThreshold) :
    Memory.countTitled (Memory.writeEntries sim groupOf today2
        (Memory.writeEntries sim groupOf today1 t [i]).1 [j]).1 i.domain i.title ≤ 1
    ∧ (∃ f, (Memory.writeEntries sim groupOf today2
        (Memory.writeEntries sim groupOf today1 t [i]).1 [j]).2
          = [Memory.WriteAction.updated f])
    ∧ ((Memory.domainOf (Memory.writeEntries sim groupOf today2
          (Memory.writeEntries sim groupOf today1 t [i]).1 [j]).1 i.domain).map
            Memory.domainListing)
        = ((Memory.domainOf
            (Memory.writeEntries sim groupOf today1 t [i]).1 i.domain).map
            Memory.domainListing)
    ∧ (∃ f e1, Memory.hasPairB (Memory.writeEntries sim groupOf today1 t [i]).1
          i.domain f e1 = true
        ∧ e1.title = i.title
        ∧ Memory.hasPairB (Memory.writeEntries sim groupOf today2
              (Memory.writeEntries sim groupOf today1 t [i]).1 [j]).1 i.domain f
            { e1 with details := e1.details ++ [j.content]
                    , tags := Memory.unionTags e1.tags j.tags
                    , updated := today2 } = true) := by
  have hD0ex : ∃ D0,
      (Memory.ensureDomainDir t.domains i.domain).find?
          (fun d => d.name = i.domain) = some D0
      ∧ Memory.countD D0 i.title ≤ 1
      ∧ D0.entries.length < Memory.rebalanceThreshold := by
    cases h0 : t.domains.find? (fun d => d.name = i.domain) with
    | none =>
      refine ⟨Memory.emptyDomain i.domain,
        Memory.find?_ensureDomainDir_none _ _ h0, ?_, ?_⟩
      · rw [Memory.countD_emptyDomain]
        omega
      · show (Memory.emptyDomain i.domain).entries.length < Memory.rebalanceThreshold
        rw [Memory.emptyDomain, Memory.rebalanceThreshold]
        simp
    | some d =>
      refine ⟨Memory.fixIndex d, Memory.find?_ensureDomainDir_some _ _ _ h0, ?_, ?_⟩
      · rw [Memory.countD_fixIndex]
        simp only [Memory.countTitled, Memory.domainOf, h0] at Hclean
        exact Hclean
      · rw [(Memory.fixIndex_fields d).2.1]
        simp only [Memory.directCount, Memory.domainOf, h0] at Hsize
        exact Hsize
  obtain ⟨D0, hD0, hD0c, hD0s⟩ := hD0ex
  obtain ⟨hcore_a, ⟨fz, hcore_b⟩, hcore_c, ⟨fp, e1, hp1, hpt, hp2⟩, hcore_l1, hcore_l2⟩ :=
    Memory.writeItem_dedup_core sim today1 today2 D0 i j Hi Hj Hjt hD0c
  have hsz1 : (Memory.writeItemInDomain sim today1 D0 i).1.entries.length
      ≤ Memory.rebalanceThreshold := by omega
  obtain ⟨ht1dom, ht1rep⟩ :=
    Memory.writeEntries_single_step sim groupOf today1 t i D0 hD0 hsz1
  have ht1domJ : (Memory.writeEntries sim groupOf today1 t [i]).1.domains.find?
      (fun d => d.name = j.domain)
      = some (Memory.writeItemInDomain sim today1 D0 i).1 := by
    rw [Hjd]
    rw [Memory.domainOf] at ht1dom
    exact ht1dom
  have hens2 : (Memory.ensureDomainDir
        (Memory.writeEntries sim groupOf today1 t [i]).1.domains j.domain).find?
      (fun d => d.name = j.domain)
      = some (Memory.writeItemInDomain sim today1 D0 i).1 := by
    rw [Memory.find?_ensureDomainDir_some _ _ _ ht1domJ,
        Memory.fixIndex_of_isSome _ (Memory.writeItemInDomain_index_isSome sim today1 D0 i)]
  have hsz2 : (Memory.writeItemInDomain sim today2
        (Memory.writeItemInDomain sim today1 D0 i).1 j).1.entries.length
      ≤ Memory.rebalanceThreshold := by omega
  obtain ⟨ht2dom, ht2rep⟩ :=
    Memory.writeEntries_single_step sim groupOf today2
      (Memory.writeEntries sim groupOf today1 t [i]).1 j
      (Memory.writeItemInDomain sim today1 D0 i).1 hens2 hsz2
  have ht2dom' : Memory.domainOf (Memory.writeEntries sim groupOf today2
        (Memory.writeEntries sim groupOf today1 t [i]).1 [j]).1 i.domain
      = some (Memory.writeItemInDomain sim today2
          (Memory.writeItemInDomain sim today1 D0 i).1 j).1 := by
    rw [← Hjd]
    exact ht2dom
  refine ⟨?_, ⟨fz, by rw [ht2rep, hcore_b]⟩, ?_, ?_⟩
  · simp only [Memory.countTitled, ht2dom']
    exact hcore_a
  · rw [ht2dom', ht1dom]
    simp only [Option.map_some']
    rw [hcore_c]
  · exact ⟨fp, e1, Memory.hasPairB_of_domainOf _ _ _ _ _ ht1dom hp1, hpt,
      Memory.hasPairB_of_domainOf _ _ _ _ _ ht2dom' hp2⟩

/-- Witness for C1: a concrete double write of the same (title, domain)
pair into a fresh tree reports UPDATE on the second call. -/
theorem C1_witness :
    ∃ f, (Memory.writeEntries (fun it e => e.title = it.title) (fun _ _ => "g") 7
        (Memory.writeEntries (fun it e => e.title = it.title) (fun _ _ => "g") 6
          (Memory.initMemoryTree none)
          [⟨"decisions", "Use PostgreSQL", "Chose Postgres over MySQL",
            ["database"], "high", []⟩]).1
        [⟨"decisions", "Use PostgreSQL", "Revisited: still Postgres",
          ["database", "rationale"], "high", []⟩]).2
      = [Memory.WriteAction.updated f] :=
  (C1_second_write_updates (fun it e => e.title = it.title) (fun _ _ => "g") 6 7
    (Memory.initMemoryTree none)
    ⟨"decisions", "Use PostgreSQL", "Chose Postgres over MySQL",
      ["database"], "high", []⟩
    ⟨"decisions", "Use PostgreSQL", "Revisited: still Postgres",
      ["database", "rationale"], "high", []⟩
    (fun e => by simp) (fun e => by simp) rfl rfl (by decide) (by decide)).2.1

/-- Claim C2 counterexample: the claim fails as stated. With a prior
index holding two hand-authored descriptions for files `a/auth.ts` and
`b/auth.ts` (rows keyed by the shared basename `auth.ts`), both files
still present, the reconciled index drops the second description: the
extraction table is keyed by basename and the first encountered
description wins for all matches, as the spec itself documents as a
limitation of step 4. -/
theorem C2_counterexample :
    Memory.IndexLine.row "auth.ts" (some "Other handler")
      ∈ [Memory.IndexLine.header "a",
         Memory.IndexLine.row "auth.ts" (some "Login handler"),
         Memory.IndexLine.header "b",
         Memory.IndexLine.row "auth.ts" (some "Other handler")]
    ∧ (∀ p ∈ Memory.extractDescriptions
          [Memory.IndexLine.header "a",
           Memory.IndexLine.row "auth.ts" (some "Login handler"),
           Memory.IndexLine.header "b",
           Memory.IndexLine.row "auth.ts" (some "Other handler")],
        ∃ f ∈ ([⟨"a", "auth.ts"⟩, ⟨"b", "auth.ts"⟩] : List Memory.PFile),
          f.base = p.1)
    ∧ Memory.IndexLine.row "auth.ts" (some "Other handler")
        ∉ Memory.reconcile 5 (fun _ => false)
            ([⟨"a", "auth.ts"⟩, ⟨"b", "auth.ts"⟩] : List Memory.PFile)
            (some [Memory.IndexLine.header "a",
                   Memory.IndexLine.row "auth.ts" (some "Login handler"),
                   Memory.IndexLine.header "b",
                   Memory.IndexLine.row "auth.ts" (some "Other handler")]) := by
  refine ⟨by decide, by decide, by decide⟩

/-- Claim C2 (amended): for every prior file index whose hand-authored
descriptions sit on rows with pairwise-distinct basenames, if none of the
described files has been deleted, reconcile produces an index that still
contains every description verbatim attached to the surviving file rows,
while files with no described basename get no description. (Without the
distinct-basename condition the first encountered description wins for
all matches, the documented tie rule.) -/
theorem C2_reconcile_preserves_descriptions
    (today : Nat) (excluded : Memory.PFile → Bool) (files : List Memory.PFile)
    (prior : List Memory.IndexLine)
    (hnd : ((Memory.extractDescriptions prior).map Prod.fst).Nodup)
    (hsurv : ∀ p ∈ Memory.extractDescriptions prior,
       ∃ f ∈ files, excluded f = false ∧ f.base = p.1) :
    (∀ p ∈ Memory.extractDescriptions prior,
       Memory.IndexLine.row p.1 (some p.2)
         ∈ Memory.reconcile today excluded files (some prior))
    ∧ (∀ f ∈ files, excluded f = false →
       (∀ d, (f.base, d) ∉ Memory.extractDescriptions prior) →
       Memory.IndexLine.row f.base none
         ∈ Memory.reconcile today excluded files (some prior)) := by
  constructor
  · intro p hp
    obtain ⟨f, hf, hex, hb⟩ := hsurv p hp
    have hlook : Memory.lookupDescr f.base (Memory.extractDescriptions prior)
        = some p.2 := by
      rw [hb]
      exact Memory.lookupDescr_of_nodup _ _ _ hnd (by simpa using hp)
    have := Memory.row_mem_reconcile today excluded files prior f hf hex
    rw [hlook] at this
    rwa [hb] at this
  · intro f hf hex hnone
    have hlook : Memory.lookupDescr f.base (Memory.extractDescriptions prior)
        = none := Memory.lookupDescr_eq_none _ _ hnone
    have := Memory.row_mem_reconcile today excluded files prior f hf hex
    rwa [hlook] at this

/-- Witness for the amended C2 at a concrete instance: a surviving
described file keeps its description. -/
theorem C2_witness :
    Memory.IndexLine.row "auth.ts" (some "Login handler")
      ∈ Memory.reconcile 1 (fun _ => false)
          ([⟨"src", "auth.ts"⟩] : List Memory.PFile)
          (some [Memory.IndexLine.row "auth.ts" (some "Login handler")]) := by
  have h := C2_reconcile_preserves_descriptions 1 (fun _ => false)
      ([⟨"src", "auth.ts"⟩] : List Memory.PFile)
      [Memory.IndexLine.row "auth.ts" (some "Login handler")]
      (by decide) (by decide)
  exact h.1 ("auth.ts", "Login handler") (by decide)

/-- Claim C3: initialization is idempotent and non-destructive on an
already-initialized tree: for every starting state, running the
initializer on the result of a first run returns that result unchanged —
no duplicated index rows, no overwritten entries or index content. -/
theorem C3_initMemoryTree_idempotent (t0 : Option Memory.Tree) :
    Memory.initMemoryTree (some (Memory.initMemoryTree t0))
      = Memory.initMemoryTree t0 := by
  rw [Memory.initMemoryTree]
  exact Memory.foldl_ensureDomain_of_ready _ _
    (fun n hn => Memory.readyFor_initMemoryTree t0 n hn)

/-- Claim C6: rebalanceIfNeeded is a no-op whenever the domain holds at
most 8 non-index leaf files; whenever it holds more, after rebalancing
every original direct file is reachable from the domain's index directly
or via exactly one subdirectory level, and the domain's direct non-index
file count is at most 8 (indeed zero, every direct file having been moved
into its topic group's subdirectory). -/
theorem C6_rebalance_threshold (groupOf : String → Memory.Entry → String)
    (today : Nat) (d : Memory.Domain) :
    (d.entries.length ≤ Memory.rebalanceThreshold →
        Memory.rebalanceIfNeeded groupOf today d = d)
    ∧ (Memory.rebalanceThreshold < d.entries.length →
        (Memory.rebalanceIfNeeded groupOf today d).entries.length
            ≤ Memory.rebalanceThreshold
        ∧ ∀ p ∈ d.entries,
            Memory.reachableOneLevel (Memory.rebalanceIfNeeded groupOf today d) p.1
              = true) := by
  constructor
  · intro h
    rw [Memory.rebalanceIfNeeded, if_pos h]
  · intro h
    have hneg : ¬ d.entries.length ≤ Memory.rebalanceThreshold := Nat.not_le.mpr h
    constructor
    · rw [Memory.rebalanceIfNeeded, if_neg hneg]
      simp
    · intro p hp
      obtain ⟨f, e⟩ := p
      rw [Memory.rebalanceIfNeeded, if_neg hneg]
      have hhold := Memory.subHolds_moveAll_of_mem groupOf today d.entries d.subdirs f e hp
      rw [Memory.subHolds, List.any_eq_true] at hhold
      obtain ⟨s, hs, hprop⟩ := hhold
      obtain ⟨hent, hidx⟩ := Bool.and_eq_true_iff.mp hprop
      have hrow := Memory.foldl_upsert_any_self (Memory.moveAll groupOf today d.entries d.subdirs)
          ((d.index.getD []).filter fun r => !(d.entries.any fun p2 => p2.1 = r.child))
          s today hs
      rw [Memory.reachableOneLevel]
      apply Bool.or_eq_true_iff.mpr
      right
      rw [List.any_eq_true]
      refine ⟨s, ?_, ?_⟩
      · simpa using hs
      · simp only [Option.getD_some]
        simp [hent, hidx, hrow]

/-- Witness for C6: a concrete empty domain is untouched, and in a
concrete nine-file domain rebalanced with a constant topic heuristic the
first original file stays reachable through one subdirectory level. -/
theorem C6_witness :
    Memory.rebalanceIfNeeded (fun _ _ => "topic") 7 (Memory.emptyDomain "bugs")
        = Memory.emptyDomain "bugs"
    ∧ Memory.reachableOneLevel
        (Memory.rebalanceIfNeeded (fun _ _ => "topic") 7 Memory.nineFileDomain) "f0"
        = true := by
  refine ⟨(C6_rebalance_threshold (fun _ _ => "topic") 7 (Memory.emptyDomain "bugs")).1
      (by decide), ?_⟩
  exact ((C6_rebalance_threshold (fun _ _ => "topic") 7 Memory.nineFileDomain).2
      (by decide)).2 ("f0", Memory.plainEntry "t0") (by decide)

/-- Claim C4: after every completed write by the Entry Writer (including
its post-write rebalance pass), each domain directory's index rows are
in bijection with the directory's immediate children — every entry file
or subdirectory has exactly one row in the domain's index, and every row
corresponds to an existing child; the same holds inside every topic
subdirectory. Stated as preservation: a tree satisfying the invariant
still satisfies it after any writeEntries call. -/
theorem C4_index_bijection (sim : Memory.Item → Memory.Entry → Bool)
    (groupOf : String → Memory.Entry → String) (today : Nat)
    (t : Memory.Tree) (items : List Memory.Item) (h : Memory.TreeWF t) :
    Memory.TreeWF (Memory.writeEntries sim groupOf today t items).1 := by
  rw [Memory.writeEntries]
  intro d hd
  exact Memory.treeWF_rebalanceDomains groupOf today _ _
    (Memory.treeWF_writeItemsAux sim today t items h) d hd

/-- Witness for C4: the freshly initialized tree satisfies the
invariant, and it still does after a concrete write. -/
theorem C4_witness :
    Memory.TreeWF (Memory.writeEntries (fun _ _ => false) (fun _ _ => "g") 5
        (Memory.initMemoryTree none) [⟨"bugs", "New bug", "c", [], "high", []⟩]).1 :=
  C4_index_bijection (fun _ _ => false) (fun _ _ => "g") 5
    (Memory.initMemoryTree none) [⟨"bugs", "New bug", "c", [], "high", []⟩]
    (by decide)

/-- Claim C5: no operation of the memory subsystem removes an existing
entry file from the tree. Initialization, writeEntries (including its
post-write rebalance), and rebalancing preserve every reachable entry
filename; reconciliation leaves all domain directories untouched (it
replaces only the files-domain project index); the Locator is read-only
by construction, returning no tree at all. An entry superseded by a
later write is marked with an archived status field in place: the pair
keeps its filename and every content field, only status changes. -/
theorem C5_never_delete (sim : Memory.Item → Memory.Entry → Bool)
    (groupOf : String → Memory.Entry → String) (today : Nat)
    (excluded : Memory.PFile → Bool) (files : List Memory.PFile)
    (items : List Memory.Item) (t : Memory.Tree) (d : Memory.Domain)
    (dn f : String) (e : Memory.Entry) :
    (Memory.hasFileB t dn f = true →
        Memory.hasFileB (Memory.initMemoryTree (some t)) dn f = true)
    ∧ (Memory.reconcileTree today excluded files t).domains = t.domains
    ∧ (Memory.hasFileB t dn f = true →
        Memory.hasFileB (Memory.writeEntries sim groupOf today t items).1 dn f = true)
    ∧ (Memory.domainHasFile d f = true →
        Memory.domainHasFile (Memory.rebalanceIfNeeded groupOf today d) f = true)
    ∧ (Memory.hasPairB t dn f e = true →
        Memory.hasPairB (Memory.supersedeEntry t dn f) dn f
          { e with status := some "archived" } = true) :=
  ⟨Memory.hasFileB_initMemoryTree t dn f,
   rfl,
   Memory.hasFileB_writeEntries sim groupOf today t items dn f,
   Memory.domainHasFile_rebalance groupOf today d f,
   Memory.hasPairB_supersede t dn f e⟩

/-- Witness for C5: in a concrete one-entry tree, the existing entry
file survives a writeEntries call that creates a second entry. -/
theorem C5_witness :
    Memory.hasFileB (Memory.writeEntries (fun _ _ => false) (fun _ _ => "g") 3
        Memory.oneBugTree [⟨"bugs", "New bug", "c", [], "high", []⟩]).1
      "bugs" "old-bug" = true :=
  (C5_never_delete (fun _ _ => false) (fun _ _ => "g") 3 (fun _ => false) []
      [⟨"bugs", "New bug", "c", [], "high", []⟩] Memory.oneBugTree
      (Memory.emptyDomain "x") "bugs" "old-bug" (Memory.plainEntry "x")).2.2.1
    (by decide)

/-- Claim C7: when all four search passes produce zero hits, the Locator
returns the explicit no-matches marker; and a results outcome never
carries an empty list, so found-nothing and failed are distinguishable. -/
theorem C7_search_explicit_no_matches (t : Memory.Tree) (q : String) :
    (Memory.indexScanPass t q = [] → Memory.filenamePass t q = [] →
     Memory.tagsPass t q = [] → Memory.fulltextPass t q = [] →
     Memory.searchTree t q = Memory.SearchOutcome.noMatches)
    ∧ ∀ hs, Memory.searchTree t q = Memory.SearchOutcome.results hs → hs ≠ [] := by
  constructor
  · intro h1 h2 h3 h4
    have hg : Memory.gatherHits t q = [] := by
      rw [Memory.gatherHits]
      simp [h1, h2, h3, h4, Memory.searchLimit]
    rw [Memory.searchTree]
    simp [hg]
  · intro hs hres
    rw [Memory.searchTree] at hres
    by_cases hg : (Memory.gatherHits t q).isEmpty = true
    · rw [if_pos hg] at hres
      exact absurd hres (by simp)
    · rw [if_neg hg] at hres
      have hs_eq : hs = (Memory.rankHits (Memory.gatherHits t q)).take Memory.searchLimit := by
        injection hres with h
        exact h.symm
      subst hs_eq
      intro hnil
      have hlen := congrArg List.length hnil
      rw [List.length_take, Memory.length_rankHits] at hlen
      simp [Memory.searchLimit] at hlen
      exact hg (by rw [hlen]; rfl)

/-- Witness for C7: the freshly initialized tree yields no hits for a
query, and the Locator reports the explicit marker. -/
theorem C7_witness :
    Memory.searchTree (Memory.initMemoryTree none) "zzz"
      = Memory.SearchOutcome.noMatches :=
  (C7_search_explicit_no_matches (Memory.initMemoryTree none) "zzz").1
    (by decide) (by decide) (by decide) (by decide)

/-- Claim C10: the post-compaction recall hook is read-only and total:
for every state of the memory tree, including its complete absence,
running post_compact_recall.sh leaves the filesystem unchanged, writes at
least one line to stdout, and exits with status 0. -/
theorem C10_post_compact_recall_read_only_total (fs : Hook.MemFS) :
    (Hook.postCompactRecall fs).1 = fs
    ∧ 1 ≤ (Hook.postCompactRecall fs).2.1.length
    ∧ (Hook.postCompactRecall fs).2.2 = 0 := by
  unfold Hook.postCompactRecall
  by_cases h : fs.treeExists = false <;> simp [h]
